import Mathlib

/-!
Verification of the MDX JSX flow extension for micromark (fork with
mixed tag/expression/data flow content).

The development shallowly embeds:
* the Resolver (`resolveJsxFlow`): the pure post-pass over one parse
  unit's event list, i.e. the merge pass over adjacent `data` tokens and
  the trailing-whitespace reclassification;
* the Flow Chunk Scanner (`tokenizeJsxFlow`): the continuation-passing
  state machine, embedded as a fuel-indexed step interpreter over an
  explicit state enumeration;
* the construct-registry overlay (`removeConstruct`, `isBreak`) and, with
  an explicit array store, the allocation behaviour of the overlay
  construction (frame property);
* the extension construction (`mdxJsx`) with its configuration
  validation.

Input units are micromark `Code`s: character codes as integers, with the
negative sentinels -5 (carriageReturnLineFeed), -4 (carriageReturn),
-3 (lineFeed), -2 (horizontalTab), -1 (virtualSpace); end of input is
represented by the end of the input list (`Option.none` as a current
code).
-/

namespace MdxJsx

/-- Edge of a token boundary event: enter or exit. -/
inductive Edge
  | enter
  | exit
deriving DecidableEq, Repr

/-- A position in the input, as micromark tracks it: line, column,
absolute offset, plus the two internal indices (`_index` into the chunk
list and `_bufferIndex` inside a string chunk) that allow zero-copy
slicing. -/
structure Point where
  line : Int
  column : Int
  offset : Int
  index : Int
  bufferIndex : Int
deriving DecidableEq, Repr

/-- A token: a type tag with start and end positions.  (`end` is a Lean
keyword, hence `endPos`.) -/
structure Token where
  type : String
  start : Point
  endPos : Point
deriving DecidableEq, Repr

/-- One entry of the event list: an enter or exit boundary for a token.
In the JavaScript source the enter and the exit of one token share a
single mutable token object; the pure embedding keeps a token value in
each event and models shared mutation by updating both halves of an
adjacent enter/exit pair. -/
structure Event where
  kind : Edge
  tok : Token
deriving DecidableEq, Repr

/-- One chunk of the preprocessed input stream: either a string chunk
(character codes) or a single sentinel code chunk (line endings, tab,
virtual space, ...). -/
inductive Chunk
  | str (s : List Int)
  | code (c : Int)
deriving DecidableEq, Repr

/-- JavaScript `String.prototype.slice(a, b)` on a chunk's character
list, for non-negative indices. -/
def chunkSlice (s : List Int) (a b : Int) : List Int :=
  (s.drop a.toNat).take (b - a).toNat

/-- Modelled from the spec: the host tokenizer's chunk slicing
(`context.sliceStream`, §3 "zero-copy slicing of multi-chunk input");
the host itself is an external collaborator and is not under `src/`.
Slices the chunk list between a token's start and end positions using
the `_index`/`_bufferIndex` fields. -/
def sliceStream (chunks : List Chunk) (t : Token) : List Chunk :=
  let si := t.start.index
  let sb := t.start.bufferIndex
  let ei := t.endPos.index
  let eb := t.endPos.bufferIndex
  if si = ei then
    match (chunks.drop si.toNat).head? with
    | some (.str s) => [.str (chunkSlice s sb eb)]
    | some (.code c) => [.code c]
    | none => []
  else
    let view := (chunks.drop si.toNat).take (ei - si).toNat
    let view :=
      if sb > -1 then
        match view with
        | .str s :: rest => .str (s.drop sb.toNat) :: rest
        | _ :: rest => rest
        | [] => []
      else view
    if eb > 0 then
      view ++
        (match (chunks.drop ei.toNat).head? with
         | some (.str s) => [.str (s.take eb.toNat)]
         | some c => [c]
         | none => [])
    else view

/-- Number of trailing space (code 32) characters of a string chunk;
corresponds to the inner `while (chunk.charCodeAt(bufferIndex - 1) ===
codes.space)` loop of the resolver. -/
def trailingSpaces (s : List Int) : Nat :=
  (s.reverse.takeWhile (fun c => c = 32)).length

/-- The backward scan over the sliced chunks of a data token
(`while (index--)` loop of `resolveJsxFlow`): counts trailing
space/tab codes.  The argument list is the sliced view *reversed*
(scanning from the end); returns the loop's exit state
`(index, bufferIndex, size, tabs)`.  A virtual space chunk (-1)
contributes zero width; a tab chunk (-2) counts one and sets `tabs`;
any other code chunk (replacement character) stops the scan with
`index++`. -/
def trailScan : List Chunk → Nat → Bool → Int × Int × Nat × Bool
  | [], size, tabs => (-1, -1, size, tabs)
  | .str s :: rest, size, tabs =>
      let sp := trailingSpaces s
      let bi : Int := (s.length : Int) - (sp : Int)
      if bi ≠ 0 then ((rest.length : Int), bi, size + sp, tabs)
      else trailScan rest (size + sp) tabs
  | .code c :: rest, size, tabs =>
      if c = -2 then trailScan rest (size + 1) true
      else if c = -1 then trailScan rest size tabs
      else ((rest.length : Int) + 1, -1, size, tabs)

/-- `constants.hardBreakPrefixSizeMin` from micromark-util-symbol. -/
def hardBreakPrefixSizeMin : Nat := 2

/-- Whitespace handling for one data token that sits directly before a
line ending event or at the end of the event list (the body of the
second loop of `resolveJsxFlow`, for one triggered position).  `a` and
`b` are the enter and exit events of the data token (sharing one token
object in the source); `atEnd` is `eventIndex === events.length`.
Returns the replacement for the pair: unchanged when no trailing
whitespace was counted, a reclassified single pair when the whitespace
covers the whole token (`Object.assign(data, token)`), and the
shortened data pair followed by the new suffix token pair otherwise. -/
def processPair (chunks : List Chunk) (a b : Event) (atEnd : Bool) : List Event :=
  let d := b.tok
  let view := sliceStream chunks d
  match trailScan view.reverse 0 false with
  | (index, bufferIndex, size, tabs) =>
    if size = 0 then [a, b]
    else
      let sType := if atEnd ∨ tabs ∨ size < hardBreakPrefixSizeMin then
          "lineSuffix"
        else "hardBreakTrailing"
      let tStart : Point :=
        { line := d.endPos.line
          column := d.endPos.column - (size : Int)
          offset := d.endPos.offset - (size : Int)
          index := d.start.index + index
          bufferIndex := if index ≠ 0 then bufferIndex else d.start.bufferIndex + bufferIndex }
      let ntok : Token := { type := sType, start := tStart, endPos := d.endPos }
      let d' : Token := { d with endPos := tStart }
      if d.start.offset = d'.endPos.offset then
        [⟨.enter, ntok⟩, ⟨.exit, ntok⟩]
      else
        [⟨.enter, d'⟩, ⟨.exit, d'⟩, ⟨.enter, ntok⟩, ⟨.exit, ntok⟩]

/-- The trigger condition of the whitespace pass at one position:
the source checks `(eventIndex === events.length || events[eventIndex]
[1].type === types.lineEnding) && events[eventIndex - 1][1].type ===
types.data`; the embedding additionally requires the adjacent events to
be the enter/exit pair of one shared data token, which is how every
event list produced by the scanner is shaped (the source relies on this
aliasing when it mutates the token). -/
def isTrigger (a b : Event) (rest : List Event) : Bool :=
  (a.kind == Edge.enter) && (b.kind == Edge.exit) && (a.tok == b.tok) &&
    (b.tok.type == "data") &&
    (match rest with
     | [] => true
     | e :: _ => e.tok.type == "lineEnding")

/-- The trailing-whitespace reclassification pass of `resolveJsxFlow`
(second loop): walks the event list; at every data-token pair that sits
directly before a line ending event or at the end of the list, splits
off or reclassifies the trailing whitespace run.  After a processed
position the walk resumes behind the line ending's exit event, as the
source's extra `eventIndex++` does. -/
def wsPass (chunks : List Chunk) : List Event → List Event
  | [] => []
  | [e] => [e]
  | a :: b :: rest =>
      if isTrigger a b rest then
        match rest with
        | [] => processPair chunks a b true
        | le1 :: rest2 => processPair chunks a b false ++ le1 :: wsPass chunks rest2
      else a :: wsPass chunks (b :: rest)

/-- Update the end position of an event's token (the merge pass's
`events[enter][1].end = events[index - 1][1].end`; applied to both
halves of the kept pair since they alias one token object). -/
def setEnd (e : Event) (p : Point) : Event :=
  { e with tok := { e.tok with endPos := p } }

/-- The two events kept for a run of adjacent data tokens: unchanged
when the run was a single pair (`index !== enter + 2` guard), otherwise
the first pair with its end moved to the run's last end. -/
def emitPair (e1 e2 : Event) (lastEnd : Point) (twoPlus : Bool) : List Event :=
  if twoPlus then [setEnd e1 lastEnd, setEnd e2 lastEnd] else [e1, e2]

/-- The merge pass of `resolveJsxFlow` (first loop), as one structural
recursion over the event list.  The mode argument is `none` while
scanning for the start of a run of `data` events and
`some (e1, e2, lastEnd, twoPlus)` inside a run that started with the
pair `e1, e2`; `lastEnd` tracks the end of the last event seen in the
run (`events[index - 1][1].end`) and `twoPlus` whether more than one
pair was taken (the `index !== enter + 2` guard).  The source walks the
list two positions at a time once a run has started (`enter = index;
index++` followed by the loop's `++index`), so only the even offsets
inside a run are type-checked — mirrored here by consuming the run
pairwise and checking the first event of each pair; a trailing lone
data event at the very end of the list is absorbed into the run,
exactly as the source's terminator-at-`events.length` case does. -/
def mergeGo : Option (Event × Event × Point × Bool) → List Event → List Event
  | none, [] => []
  | none, [e] => [e]
  | none, e1 :: e2 :: rest =>
      if e1.tok.type == "data" then mergeGo (some (e1, e2, e2.tok.endPos, false)) rest
      else e1 :: mergeGo none (e2 :: rest)
  | some (e1, e2, lastEnd, twoPlus), [] => emitPair e1 e2 lastEnd twoPlus
  | some (e1, e2, lastEnd, twoPlus), [f] =>
      if f.tok.type == "data" then emitPair e1 e2 f.tok.endPos true
      else emitPair e1 e2 lastEnd twoPlus ++ [f]
  | some (e1, e2, lastEnd, twoPlus), f1 :: f2 :: rest =>
      if f1.tok.type == "data" then mergeGo (some (e1, e2, f2.tok.endPos, true)) rest
      else emitPair e1 e2 lastEnd twoPlus ++ f1 :: mergeGo none (f2 :: rest)

/-- The merge pass: scan mode of `mergeGo`. -/
def mergeData : List Event → List Event :=
  mergeGo none

/-- The in-run mode of `mergeGo`. -/
def mergeRun (e1 e2 : Event) (lastEnd : Point) (twoPlus : Bool) : List Event → List Event :=
  mergeGo (some (e1, e2, lastEnd, twoPlus))

/-- The Resolver: merge pass, then trailing-whitespace pass, over one
parse unit's finished event list.  `chunks` is the parse context's
chunk stream (consulted through `sliceStream`). -/
def resolveJsxFlow (chunks : List Chunk) (events : List Event) : List Event :=
  wsPass chunks (mergeData events)

/-! ## The Flow Chunk Scanner

The scanner is embedded as a fuel-indexed interpreter over an explicit
state enumeration; every continuation-passing state function of
`tokenizeJsxFlow` becomes one state.  The input is the list of codes
still to be consumed; the current code is its head (`none` = end of
input).  Events carry only the token type here (positions play no role
in the scanner claims). -/

/-- `markdownLineEnding` from micromark-util-character:
`code !== null && code < codes.horizontalTab`. -/
def mdLineEnding : Option Int → Bool
  | some n => n < -2
  | none => false

/-- Space-like codes: horizontal tab, virtual space, or space. -/
def isSpaceCode (c : Int) : Bool :=
  c = -2 ∨ c = -1 ∨ c = 32

/-- `markdownSpace` from micromark-util-character: horizontal tab,
virtual space, or space. -/
def mdSpace : Option Int → Bool
  | some n => isSpaceCode n
  | none => false

/-- A scanner-level event: an enter or exit of a token type. -/
structure SEvent where
  kind : Edge
  name : String
deriving DecidableEq, Repr

/-- An inline construct as the scanner sees it: a name, an optional
activation predicate `previous` over the previously consumed code, and
a denotation of attempting its tokenizer on the remaining input
(`none` = the attempt fails and is rewound; `some (evs, n)` = it
succeeds, emitting `evs` and consuming `n` codes). -/
structure TextConstruct where
  name : String
  prev? : Option (Option Int → Bool)
  run : Option Int → List Int → Option (List SEvent × Nat)

/-- A value of the construct record for one code: micromark registries
map a code to a single construct or to an array of constructs. -/
inductive Entry
  | one (c : TextConstruct)
  | many (cs : List TextConstruct)

/-- A construct record (`ConstructRecord`): code ↦ entry or undefined. -/
def Registry : Type := Int → Option Entry

/-- `removeConstruct` from `tokenizeJsxFlow`: drop the named construct
from the overlay's entry for `code`.  An array entry is filtered (a new
array in the source); a single-construct entry is cleared only when its
name matches, and is otherwise left in place. -/
def removeConstruct (reg : Registry) (code : Int) (name : String) : Registry :=
  fun c =>
    if c = code then
      match reg code with
      | some (.many l) => some (.many (l.filter (fun k => k.name ≠ name)))
      | some (.one k) => if k.name = name then none else some (.one k)
      | none => none
    else reg c

/-- The overlay built at the start of one activation of
`tokenizeJsxFlow`: a copy of the ambient text-construct registry with
the three self-handled constructs removed (tag opening, expression
opening, and the line-ending handling for all three line-ending
codes). -/
def overlayOf (ambient : Registry) : Registry :=
  removeConstruct
    (removeConstruct
      (removeConstruct
        (removeConstruct
          (removeConstruct ambient 60 "mdxJsxTextTag")
          123 "mdxTextExpression")
        (-4) "lineEnding")
      (-3) "lineEnding")
    (-5) "lineEnding"

/-- `isBreak` from `tokenizeJsxFlow`: should this code interrupt the
data token?  Returns `none` when the `assert(Array.isArray(list))`
inside it fails, i.e. when the (truthy) registry entry for the code is
a single construct rather than an array. -/
def isBreak (reg : Registry) (prev : Option Int) (code : Option Int) : Option Bool :=
  if code = some 60 ∨ code = some 123 ∨ code = none ∨ mdLineEnding code then
    some true
  else
    match code with
    | none => some true
    | some c =>
      match reg c with
      | none => some false
      | some (.one _) => none
      | some (.many l) =>
          some (l.any (fun k =>
            match k.prev? with
            | none => true
            | some p => p prev))

/-- Modelled from the spec: the host's `effects.attempt` on a construct
record (§5 "attempt", §6 Host Tokenizer API; the host is an external
collaborator).  Looks up the entry for the current code and tries each
construct in order; the first succeeding tokenizer commits. -/
def attemptRecord (reg : Registry) (prev : Option Int) (input : List Int) :
    Option (List SEvent × Nat) :=
  match input.head? with
  | none => none
  | some c =>
    match reg c with
    | none => none
    | some (.one k) => k.run prev input
    | some (.many l) => l.findSome? (fun k => k.run prev input)

/-- Identifier-start approximation for the spec-modelled tag grammar:
ASCII letter, `$`, or `_`. -/
def isIdentStart (c : Int) : Bool :=
  (65 ≤ c ∧ c ≤ 90) ∨ (97 ≤ c ∧ c ≤ 122) ∨ c = 36 ∨ c = 95

/-- Distance to just past the next `>` code, or `none` when the input
ends first. -/
def tagClose : List Int → Option Nat
  | [] => none
  | 62 :: _ => some 1
  | _ :: rest => (tagClose rest).map (· + 1)

/-- Modelled from the spec: §4.2 Tag Scanner (the repository's
`factory-tag` module is not under `src/`).  Starting at the tag-opening
code, recognizes one complete tag — opening, closing, or self-closing —
failing when the character after the opening trigger cannot begin a
valid tag and is not a closing slash or end marker, or when the input
ends before the closing marker; name/attribute sub-structure is
abstracted into the scan to the closing marker.  Emits the tag's event
pair and the number of codes consumed. -/
def tagScan : List Int → Option (List SEvent × Nat)
  | 60 :: rest =>
      let rest' := if rest.head? = some 47 then rest.tail else rest
      match rest'.head? with
      | some c =>
          if isIdentStart c ∨ c = 62 then
            (tagClose rest).map (fun n =>
              ([⟨.enter, "mdxJsxFlowTag"⟩, ⟨.exit, "mdxJsxFlowTag"⟩], 1 + n))
          else none
      | none => none
  | _ => none

/-- Distance to just past the brace matching an already-consumed `{`,
given the current extra nesting depth; `none` when input ends first. -/
def braceClose : List Int → Nat → Option Nat
  | [], _ => none
  | 125 :: _, 0 => some 1
  | 125 :: rest, d + 1 => (braceClose rest d).map (· + 1)
  | 123 :: rest, d => (braceClose rest (d + 1)).map (· + 1)
  | _ :: rest, d => (braceClose rest d).map (· + 1)

/-- Modelled from the spec: the external Expression Grammar
(`factoryMdxExpression`, §6) recognizing one placeholder chunk from the
opening brace to its matching closing brace; an unterminated
placeholder degrades to grammar failure (§7). -/
def exprScan : List Int → Option (List SEvent × Nat)
  | 123 :: rest =>
      (braceClose rest 0).map (fun n =>
        ([⟨.enter, "mdxTextExpression"⟩, ⟨.exit, "mdxTextExpression"⟩], 1 + n))
  | _ => none

/-- The clean-close attempt after a successful tag (the anonymous
construct inside `afterTag`, state `tryLine`): consume zero or more
space/tab codes as a `lineSuffix`, then succeed consuming one line
ending, or succeed at end of input without consuming, or fail. -/
def cleanClose (input : List Int) : Option (List SEvent × Nat) :=
  let sp := (input.takeWhile isSpaceCode).length
  let evs : List SEvent :=
    if sp = 0 then [] else [⟨.enter, "lineSuffix"⟩, ⟨.exit, "lineSuffix"⟩]
  match input.drop sp with
  | [] => some (evs, sp)
  | c :: _ =>
      if c < -2 then some (evs ++ [⟨.enter, "lineEnding"⟩, ⟨.exit, "lineEnding"⟩], sp + 1)
      else none

/-- The states of the Flow Chunk Scanner, one per continuation-passing
state function of `tokenizeJsxFlow`. -/
inductive S
  | start
  | afterTag
  | afterTagLE
  | maybeC
  | tryLocal
  | tryInline
  | notC
  | dataS
  | afterLE
deriving DecidableEq, Repr

/-- Outcome of running the scanner: success with the emitted events and
the unconsumed rest of the input, failure (`nok`), or `stuck` for fuel
exhaustion and for the assertion failure inside `isBreak` (which halts
the program rather than deciding the parse). -/
inductive Res
  | ok (evs : List SEvent) (rest : List Int)
  | nok
  | stuck
deriving DecidableEq, Repr

/-- Prefix committed events onto a continuation's outcome. -/
def prependRes (evs : List SEvent) : Res → Res
  | .ok e rest => .ok (evs ++ e) rest
  | r => r

/-- The `previous` code after consuming `n` codes of `input` (unchanged
when nothing was consumed). -/
def prevAfter (prev : Option Int) (input : List Int) (n : Nat) : Option Int :=
  if n = 0 then prev else input.get? (n - 1)

/-- The Flow Chunk Scanner `tokenizeJsxFlow` as a step interpreter:
`amb` is the ambient text-construct registry (`this.parser.constructs
.text`), from which the activation's overlay is built; `fuel` bounds
the number of state transitions (the source's trampoline never runs a
state twice without progress, so any fuel beyond a small multiple of
the input length is enough). -/
def run (amb : Registry) : Nat → S → Option Int → List Int → Res
  | 0, _, _, _ => .stuck
  | fuel + 1, s, prev, input =>
    let reg := overlayOf amb
    match s with
    | .start =>
        match tagScan input with
        | some (evs, n) =>
            prependRes evs (run amb fuel .afterTag (prevAfter prev input n) (input.drop n))
        | none => .nok
    | .afterTag =>
        match cleanClose input with
        | some (evs, n) =>
            prependRes evs (run amb fuel .afterTagLE (prevAfter prev input n) (input.drop n))
        | none => run amb fuel .maybeC prev input
    | .afterTagLE =>
        if mdSpace input.head? then
          let sp := (input.takeWhile isSpaceCode).length
          prependRes [⟨.enter, "linePrefix"⟩, ⟨.exit, "linePrefix"⟩]
            (run amb fuel .afterTagLE (prevAfter prev input sp) (input.drop sp))
        else if mdLineEnding input.head? ∨ input.isEmpty then .ok [] input
        else run amb fuel .maybeC prev input
    | .maybeC =>
        match isBreak reg prev input.head? with
        | none => .stuck
        | some true => run amb fuel .tryLocal prev input
        | some false => run amb fuel .notC prev input
    | .tryLocal =>
        if input.head? = some 60 then
          match tagScan input with
          | some (evs, n) =>
              prependRes evs (run amb fuel .afterTag (prevAfter prev input n) (input.drop n))
          | none => run amb fuel .tryInline prev input
        else if input.head? = some 123 then
          match exprScan input with
          | some (evs, n) =>
              prependRes evs (run amb fuel .maybeC (prevAfter prev input n) (input.drop n))
          | none => .nok
        else if mdLineEnding input.head? then
          match input with
          | c :: rest =>
              prependRes [⟨.enter, "lineEnding"⟩, ⟨.exit, "lineEnding"⟩]
                (run amb fuel .afterLE (some c) rest)
          | [] => .stuck
        else if input.isEmpty then .nok
        else run amb fuel .tryInline prev input
    | .tryInline =>
        match attemptRecord reg prev input with
        | some (evs, n) =>
            prependRes evs (run amb fuel .tryLocal (prevAfter prev input n) (input.drop n))
        | none => run amb fuel .notC prev input
    | .notC =>
        match input with
        | c :: rest => prependRes [⟨.enter, "data"⟩] (run amb fuel .dataS (some c) rest)
        | [] => .stuck
    | .dataS =>
        match isBreak reg prev input.head? with
        | none => .stuck
        | some true => prependRes [⟨.exit, "data"⟩] (run amb fuel .tryLocal prev input)
        | some false =>
            match input with
            | c :: rest => run amb fuel .dataS (some c) rest
            | [] => .stuck
    | .afterLE =>
        if mdSpace input.head? then
          let sp := (input.takeWhile isSpaceCode).length
          prependRes [⟨.enter, "linePrefix"⟩, ⟨.exit, "linePrefix"⟩]
            (run amb fuel .afterLE (prevAfter prev input sp) (input.drop sp))
        else if mdLineEnding input.head? ∨ input.isEmpty then .nok
        else run amb fuel .maybeC prev input

/-- The whole Flow Chunk Scanner from its start state. -/
def tokenizeJsxFlow (amb : Registry) (fuel : Nat) (input : List Int) : Res :=
  run amb fuel .start none input

/-! ## Registry overlay with an explicit array store

To state the frame property of the overlay construction (claim about
`Object.assign({}, this.parser.constructs.text)` plus `removeConstruct`)
the record is modelled with JavaScript reference semantics: arrays live
in a store and the record holds references, so that an in-place
mutation of a shared array would be observable.  `Array.prototype
.filter` allocates a fresh array, which the model renders as an
append to the store. -/

/-- A construct-record value as stored with reference semantics: a
single construct value, or a reference into the array store. -/
inductive RecordVal
  | construct (c : TextConstruct)
  | arr (id : Nat)

/-- A construct record holding array references. -/
def RegRecord : Type := Int → Option RecordVal

/-- The array store: array `id` is `arrays.get? id`. -/
structure Store where
  arrays : List (List TextConstruct)

/-- `removeConstruct` with reference semantics: filtering an array
entry allocates a fresh array (appended to the store) and rebinds only
the overlay record's entry; a single-construct entry is cleared when
its name matches and left untouched otherwise.  No existing array is
ever written. -/
def removeConstructAlloc (st : Store) (reg : RegRecord) (code : Int) (name : String) :
    Store × RegRecord :=
  match reg code with
  | some (.arr id) =>
      let l := (st.arrays.get? id).getD []
      let l' := l.filter (fun k => k.name ≠ name)
      (⟨st.arrays ++ [l']⟩,
       fun c => if c = code then some (.arr st.arrays.length) else reg c)
  | some (.construct k) =>
      if k.name = name then (st, fun c => if c = code then none else reg c)
      else (st, reg)
  | none => (st, reg)

/-- The overlay construction of one scanner activation with reference
semantics: start from the shallow copy of the ambient record (same
mapping, same array references) and apply the five `removeConstruct`
calls. -/
def mkOverlayAlloc (st : Store) (ambient : RegRecord) : Store × RegRecord :=
  let p1 := removeConstructAlloc st ambient 60 "mdxJsxTextTag"
  let p2 := removeConstructAlloc p1.1 p1.2 123 "mdxTextExpression"
  let p3 := removeConstructAlloc p2.1 p2.2 (-4) "lineEnding"
  let p4 := removeConstructAlloc p3.1 p3.2 (-3) "lineEnding"
  removeConstructAlloc p4.1 p4.2 (-5) "lineEnding"

/-! ## Extension construction (`mdxJsx` from syntax.js) -/

/-- Presence of the two required entry points on a supplied parser
(`acorn.parse`, `acorn.parseExpressionAt`; JavaScript truthiness). -/
structure AcornLike where
  parse : Bool
  parseExpressionAt : Bool
deriving DecidableEq, Repr

/-- The options record for `mdxJsx`: an optional parser, whether
(truthy) parser options were supplied, and the `addResult` flag. -/
structure MdxJsxOptions where
  acorn : Option AcornLike
  acornOptions : Bool
  addResult : Bool
deriving DecidableEq, Repr

/-- Which construct gets wired for a trigger code. -/
inductive WiredConstruct
  | jsxFlowConstruct
  | jsxTextConstruct
deriving DecidableEq, Repr

/-- The returned extension: per-code construct mappings for the flow
and the text context. -/
structure Extension where
  flow : Int → Option WiredConstruct
  text : Int → Option WiredConstruct

/-- `mdxJsx` from `src/dev/lib/syntax.js`: validate the wiring, then
return the extension mapping the tag-opening code (60, `<`) to the JSX
construct in the flow and the text context. -/
def mdxJsx (options : Option MdxJsxOptions) : Except String Extension :=
  let settings := options.getD ⟨none, false, false⟩
  match settings.acorn with
  | some a =>
      if a.parse ∧ a.parseExpressionAt then
        .ok ⟨fun c => if c = 60 then some .jsxFlowConstruct else none,
             fun c => if c = 60 then some .jsxTextConstruct else none⟩
      else
        .error "Expected a proper `acorn` instance passed in as `options.acorn`"
  | none =>
      if settings.acornOptions ∨ settings.addResult then
        .error "Expected an `acorn` instance passed in as `options.acorn`"
      else
        .ok ⟨fun c => if c = 60 then some .jsxFlowConstruct else none,
             fun c => if c = 60 then some .jsxTextConstruct else none⟩

/-- The incompatible-wiring condition, written from the claim's words
(for comparison against `mdxJsx`): parser options or `addResult`
without a parser, or a parser missing one of the two entry points. -/
def badWiring (options : Option MdxJsxOptions) : Bool :=
  let settings := options.getD ⟨none, false, false⟩
  match settings.acorn with
  | some a => !(a.parse && a.parseExpressionAt)
  | none => settings.acornOptions || settings.addResult

/-! ## Concrete objects used by witnesses and examples -/

/-- The enter/exit event pairs of a list of data tokens (a burst
decomposition, as the scanner emits them one adjacent pair per
burst). -/
def dataPairs (ds : List Token) : List Event :=
  ds.flatMap (fun d => [⟨.enter, d⟩, ⟨.exit, d⟩])

/-- An empty ambient text-construct registry. -/
def emptyRegistry : Registry := fun _ => none

/-- A sample inline construct (an attention-like construct with no
activation predicate whose tokenizer never matches). -/
def sampleConstruct : TextConstruct :=
  ⟨"attention", none, fun _ _ => none⟩

/-- A sample inline construct with an activation predicate accepting
any previous code except a space. -/
def sampleConstructPrev : TextConstruct :=
  ⟨"attention", some (fun p => p ≠ some 32), fun _ _ => none⟩

/-- Ambient registry with an array entry for code 42 (`*`). -/
def ambSample : Registry :=
  fun c => if c = 42 then some (.many [sampleConstruct]) else none

/-- Ambient registry whose entry for code 42 is a single construct
rather than an array. -/
def ambSingle : Registry :=
  fun c => if c = 42 then some (.one sampleConstruct) else none

/-- A point on line 1 at offset `o`, chunk index `i`, buffer index `b`. -/
def pt (o i b : Int) : Point :=
  ⟨1, o + 1, o, i, b⟩

/-- Chunk stream of `"a  \n"`. -/
def chA2 : List Chunk := [.str [97, 32, 32], .code (-3)]

/-- Chunk stream of `"a \n"`. -/
def chA1 : List Chunk := [.str [97, 32], .code (-3)]

/-- Data token over `"a  "` (offsets 0–3) of `chA2`. -/
def dTokA2 : Token := ⟨"data", pt 0 0 0, pt 3 0 3⟩

/-- Data token over `"a "` (offsets 0–2) of `chA1`. -/
def dTokA1 : Token := ⟨"data", pt 0 0 0, pt 2 0 2⟩

/-- Line-ending token following the data token in `chA2`. -/
def leTokA2 : Token := ⟨"lineEnding", pt 3 1 (-1), pt 4 2 0⟩

/-- Line-ending token following the data token in `chA1`. -/
def leTokA1 : Token := ⟨"lineEnding", pt 2 1 (-1), pt 3 2 0⟩

/-- Chunk stream of `"<div>hi</div>\n"`. -/
def chDivHi : List Chunk :=
  [.str [60, 100, 105, 118, 62, 104, 105, 60, 47, 100, 105, 118, 62], .code (-3)]

/-- Opening-tag token of `"<div>hi</div>\n"` (offsets 0–5). -/
def tagOpenTok : Token := ⟨"mdxJsxFlowTag", pt 0 0 0, pt 5 0 5⟩

/-- Closing-tag token of `"<div>hi</div>\n"` (offsets 7–13). -/
def tagCloseTok : Token := ⟨"mdxJsxFlowTag", pt 7 0 7, pt 13 0 13⟩

/-- Line-ending token of `"<div>hi</div>\n"` (offsets 13–14). -/
def leTokDiv : Token := ⟨"lineEnding", pt 13 1 (-1), pt 14 2 0⟩

/-- Start position of `"hi"` in `"<div>hi</div>\n"`. -/
def pH : Point := pt 5 0 5

/-- End position of `"hi"` in `"<div>hi</div>\n"`. -/
def pI : Point := pt 7 0 7

/-- Events before the `"hi"` data run. -/
def preDivHi : List Event := [⟨.enter, tagOpenTok⟩, ⟨.exit, tagOpenTok⟩]

/-- Events after the `"hi"` data run. -/
def postDivHi : List Event :=
  [⟨.enter, tagCloseTok⟩, ⟨.exit, tagCloseTok⟩, ⟨.enter, leTokDiv⟩, ⟨.exit, leTokDiv⟩]

/-- A two-burst decomposition of `"hi"` (`"h"` then `"i"`). -/
def burstsHi : List Token :=
  [⟨"data", pt 5 0 5, pt 6 0 6⟩, ⟨"data", pt 6 0 6, pt 7 0 7⟩]

/-- Store with one shared array (for the frame-property witness). -/
def storeSample : Store := ⟨[[sampleConstruct]]⟩

/-- Ambient record referring to the shared array for code 60 (so that
the overlay construction filters exactly this array). -/
def ambRecSample : RegRecord :=
  fun c => if c = 60 then some (.arr 0) else none

/-! ## Helper lemmas -/

theorem takeWhile_append_of_forall {p : Int → Bool} :
    ∀ (xs ys : List Int), (∀ c ∈ xs, p c = true) →
      (∀ y, ys.head? = some y → p y = false) →
      (xs ++ ys).takeWhile p = xs := by
  intro xs
  induction xs with
  | nil =>
      intro ys _ hy
      cases ys with
      | nil => rfl
      | cons y ys' => simp [List.takeWhile, hy y rfl]
  | cons x xs ih =>
      intro ys hx hy
      have hpx : p x = true := hx x (by simp)
      simp only [List.cons_append, List.takeWhile, hpx]
      rw [show xs.append ys = xs ++ ys from rfl,
        ih ys (fun c hc => hx c (by simp [hc])) hy]

/-- Every store produced by one `removeConstruct` call extends the old
store; no existing array is written. -/
theorem removeConstructAlloc_arrays (st : Store) (reg : RegRecord) (code : Int)
    (name : String) :
    ∃ t, (removeConstructAlloc st reg code name).1.arrays = st.arrays ++ t := by
  unfold removeConstructAlloc
  cases hv : reg code with
  | none => exact ⟨[], by simp⟩
  | some v =>
      cases v with
      | construct k =>
          by_cases hk : k.name = name <;> simp [hk]
      | arr id => exact ⟨_, rfl⟩

/-! ## Claim C9: extension construction and configuration validation -/

/-- Claim C9: extension construction (`mdxJsx`) raises a configuration
error exactly when the wiring is incompatible — parser options or
`addResult` without a parser, or a parser missing one of the two entry
points — and for every other options value (including none at all)
returns an extension mapping the tag-opening trigger code to the
scanner construct in both the flow and the text contexts. -/
theorem claimC9_configuration : ∀ o : Option MdxJsxOptions,
    ((∃ e, mdxJsx o = .error e) ↔ badWiring o = true) ∧
    (∀ ext, mdxJsx o = .ok ext →
      ext.flow 60 = some .jsxFlowConstruct ∧ ext.text 60 = some .jsxTextConstruct) := by
  intro o
  rcases o with _ | ⟨acorn, aopts, ares⟩
  · refine ⟨by simp [mdxJsx, badWiring], ?_⟩
    intro ext hext
    simp [mdxJsx] at hext
    subst hext
    exact ⟨rfl, rfl⟩
  · rcases acorn with _ | ⟨p, pe⟩
    · cases aopts <;> cases ares <;>
        refine ⟨by simp [mdxJsx, badWiring], ?_⟩ <;>
        intro ext hext <;>
        first
        | (simp [mdxJsx] at hext; subst hext; exact ⟨rfl, rfl⟩)
        | simp [mdxJsx] at hext
    · cases p <;> cases pe <;>
        refine ⟨by simp [mdxJsx, badWiring], ?_⟩ <;>
        intro ext hext <;>
        first
        | (simp [mdxJsx] at hext; subst hext; exact ⟨rfl, rfl⟩)
        | simp [mdxJsx] at hext

/-- Witness for C9 at concrete inputs: no options at all succeeds with
the tag-opening mapping; `addResult` without a parser fails; a parser
missing `parseExpressionAt` fails. -/
theorem claimC9_witness :
    (∀ ext, mdxJsx none = .ok ext →
       ext.flow 60 = some .jsxFlowConstruct ∧ ext.text 60 = some .jsxTextConstruct) ∧
    (∃ e, mdxJsx (some ⟨none, false, true⟩) = .error e) ∧
    (∃ e, mdxJsx (some ⟨some ⟨true, false⟩, false, false⟩) = .error e) :=
  ⟨(claimC9_configuration none).2,
   ((claimC9_configuration (some ⟨none, false, true⟩)).1).2 (by decide),
   ((claimC9_configuration (some ⟨some ⟨true, false⟩, false, false⟩)).1).2 (by decide)⟩

/-! ## Claim C10: `isBreak` totality and the non-array assertion -/

/-- Claim C10: `isBreak` is total exactly under the precondition that
every defined overlay entry is an array: a (truthy) single-construct
entry — a shape `removeConstruct` accepts and leaves in place when the
name does not match — makes the `assert(Array.isArray(list))` inside
`isBreak` fail (modelled as `none`) instead of the entry being
consulted. -/
theorem claimC10_isBreak_assert :
    (∀ (reg : Registry) (prev code : Option Int),
       (∀ c k, reg c ≠ some (.one k)) → (isBreak reg prev code).isSome) ∧
    (∀ (reg : Registry) (prev : Option Int) (c : Int) (k : TextConstruct),
       reg c = some (.one k) → c ≠ 60 → c ≠ 123 → ¬ mdLineEnding (some c) = true →
       isBreak reg prev (some c) = none) ∧
    (∀ (reg : Registry) (c : Int) (k : TextConstruct) (name : String),
       reg c = some (.one k) → k.name ≠ name →
       removeConstruct reg c name c = some (.one k)) := by
  refine ⟨?_, ?_, ?_⟩
  · intro reg prev code hreg
    unfold isBreak
    by_cases h : (code = some 60 ∨ code = some 123 ∨ code = none ∨ mdLineEnding code = true)
    · simp [h]
    · simp only [if_neg h]
      cases code with
      | none => simp
      | some c =>
          cases hc : reg c with
          | none => simp [hc]
          | some e =>
              cases e with
              | one k => exact absurd hc (hreg c k)
              | many l => simp [hc]
  · intro reg prev c k hk h60 h123 hle
    unfold isBreak
    have h : ¬ (some c = some 60 ∨ some c = some 123 ∨ (some c : Option Int) = none ∨
        mdLineEnding (some c) = true) := by
      push_neg
      refine ⟨by simpa using h60, by simpa using h123, by simp, hle⟩
    simp only [if_neg h, hk]
  · intro reg c k name hk hn
    unfold removeConstruct
    simp [hk, hn]

/-- Witness for C10: an all-array registry gives a total `isBreak`; a
single-construct entry at code 42 survives `removeConstruct` with a
non-matching name and trips the assertion. -/
theorem claimC10_witness :
    (isBreak ambSample none (some 42)).isSome ∧
    isBreak ambSingle none (some 42) = none ∧
    removeConstruct ambSingle 42 "mdxJsxTextTag" 42 = some (.one sampleConstruct) :=
  ⟨claimC10_isBreak_assert.1 ambSample none (some 42)
      (by
        intro c k
        unfold ambSample
        by_cases h : c = 42 <;> simp [h]),
   claimC10_isBreak_assert.2.1 ambSingle none 42 sampleConstruct rfl
      (by decide) (by decide) (by decide),
   claimC10_isBreak_assert.2.2 ambSingle 42 sampleConstruct "mdxJsxTextTag" rfl
      (by decide)⟩

/-! ## Claim C8: the overlay never mutates shared registry state -/

/-- Claim C8: the filtered-copy construction and every `removeConstruct`
call only allocate: the store produced by the overlay construction
extends the old store, so every pre-existing array — in particular every
array the ambient registry references — is left with its old contents,
and the exclusion is invisible outside the activation. -/
theorem claimC8_overlay_frame :
    (∀ (st : Store) (reg : RegRecord) (code : Int) (name : String),
       ∃ t, (removeConstructAlloc st reg code name).1.arrays = st.arrays ++ t) ∧
    (∀ (st : Store) (ambient : RegRecord),
       ∃ t, (mkOverlayAlloc st ambient).1.arrays = st.arrays ++ t) ∧
    (∀ (st : Store) (ambient : RegRecord) (id : Nat), id < st.arrays.length →
       (mkOverlayAlloc st ambient).1.arrays[id]? = st.arrays[id]?) := by
  have hstep := removeConstructAlloc_arrays
  have hmk : ∀ (st : Store) (ambient : RegRecord),
      ∃ t, (mkOverlayAlloc st ambient).1.arrays = st.arrays ++ t := by
    intro st ambient
    unfold mkOverlayAlloc
    obtain ⟨t1, h1⟩ := hstep st ambient 60 "mdxJsxTextTag"
    obtain ⟨t2, h2⟩ := hstep _ (removeConstructAlloc st ambient 60 "mdxJsxTextTag").2
      123 "mdxTextExpression"
    obtain ⟨t3, h3⟩ := hstep _ (removeConstructAlloc _ _ 123 "mdxTextExpression").2
      (-4) "lineEnding"
    obtain ⟨t4, h4⟩ := hstep _ (removeConstructAlloc _ _ (-4) "lineEnding").2
      (-3) "lineEnding"
    obtain ⟨t5, h5⟩ := hstep _ (removeConstructAlloc _ _ (-3) "lineEnding").2
      (-5) "lineEnding"
    refine ⟨t1 ++ t2 ++ t3 ++ t4 ++ t5, ?_⟩
    rw [h5, h4, h3, h2, h1]
    simp [List.append_assoc]
  refine ⟨hstep, hmk, ?_⟩
  intro st ambient id hid
  obtain ⟨t, ht⟩ := hmk st ambient
  rw [ht]
  exact List.getElem?_append_left hid

/-- Witness for C8: with one shared array referenced by the ambient
record, the overlay construction leaves the stored array's contents
readable unchanged through the old reference. -/
theorem claimC8_witness :
    (mkOverlayAlloc storeSample ambRecSample).1.arrays[0]? =
      storeSample.arrays[0]? :=
  claimC8_overlay_frame.2.2 storeSample ambRecSample 0 (by decide)

/-! ## Claim C3: end of input in steady-state dispatch -/

/-- Claim C3 (counterexample): for `"<div>x"` the initial tag succeeds
and the clean close fails (so scanning is in steady-state dispatch when
the input ends), yet the whole construct fails with `nok` — end of
input in steady state does *not* finish the block successfully. -/
theorem claimC3_counterexample :
    tagScan [60, 100, 105, 118, 62, 120] =
      some ([⟨.enter, "mdxJsxFlowTag"⟩, ⟨.exit, "mdxJsxFlowTag"⟩], 5) ∧
    cleanClose [120] = none ∧
    run emptyRegistry 50 .start none [60, 100, 105, 118, 62, 120] = .nok := by
  refine ⟨by decide, by decide, by decide⟩

/-- Claim C3 (amended): in steady-state dispatch, end of input *fails*
the construct via the failure continuation — both at the dispatch site
(`tryLocalConstructs`) and when it interrupts data accumulation. -/
theorem claimC3_amended : ∀ (amb : Registry) (fuel : Nat) (prev : Option Int),
    run amb (fuel + 1) .tryLocal prev [] = .nok ∧
    run amb (fuel + 2) .dataS prev [] = .nok := by
  intro amb fuel prev
  constructor <;> simp [run, isBreak, mdLineEnding, prependRes]

/-! ## Claim C1: clean close after a successful tag -/

/-- Claim C1: after a successful initial tag the scanner attempts the
clean close, which consumes optional space/tab as a line suffix and
then either one line ending or end of input; when neither follows, the
attempt is rewound (`cleanClose` reports failure having consumed
nothing) and scanning continues at the very same position as ordinary
chunk content of the same block (`maybeConstruct`), not with failure. -/
theorem claimC1_clean_close :
    (∀ (amb : Registry) (fuel : Nat) (prev : Option Int) (input : List Int) evs n,
        tagScan input = some (evs, n) →
        run amb (fuel + 1) .start prev input =
          prependRes evs (run amb fuel .afterTag (prevAfter prev input n) (input.drop n))) ∧
    (∀ (amb : Registry) (fuel : Nat) (prev : Option Int) (input : List Int) evs n,
        cleanClose input = some (evs, n) →
        run amb (fuel + 1) .afterTag prev input =
          prependRes evs (run amb fuel .afterTagLE (prevAfter prev input n) (input.drop n))) ∧
    (∀ (amb : Registry) (fuel : Nat) (prev : Option Int) (input : List Int),
        cleanClose input = none →
        run amb (fuel + 1) .afterTag prev input = run amb fuel .maybeC prev input) ∧
    (∀ (sp rest : List Int), (∀ c ∈ sp, isSpaceCode c = true) →
        (∀ y, rest.head? = some y → isSpaceCode y = false) →
        (rest = [] → cleanClose (sp ++ rest) =
            some ((if sp.length = 0 then [] else
              [⟨.enter, "lineSuffix"⟩, ⟨.exit, "lineSuffix"⟩]), sp.length)) ∧
        (∀ c rest', rest = c :: rest' → c < -2 →
            cleanClose (sp ++ rest) =
              some ((if sp.length = 0 then ([] : List SEvent) else
                [⟨.enter, "lineSuffix"⟩, ⟨.exit, "lineSuffix"⟩]) ++
                [⟨.enter, "lineEnding"⟩, ⟨.exit, "lineEnding"⟩], sp.length + 1)) ∧
        (∀ c rest', rest = c :: rest' → ¬ c < -2 → cleanClose (sp ++ rest) = none)) := by
  refine ⟨?_, ?_, ?_, ?_⟩
  · intro amb fuel prev input evs n h
    simp only [run]
    rw [h]
  · intro amb fuel prev input evs n h
    simp only [run]
    rw [h]
  · intro amb fuel prev input h
    simp only [run]
    rw [h]
  · intro sp rest hsp hrest
    have htw : (sp ++ rest).takeWhile isSpaceCode = sp :=
      takeWhile_append_of_forall sp rest hsp hrest
    refine ⟨?_, ?_, ?_⟩
    · intro hr
      subst hr
      rw [List.append_nil] at htw
      rw [List.append_nil]
      simp only [cleanClose, htw, List.drop_length]
    · intro c rest' hr hc
      subst hr
      simp only [cleanClose, htw, List.drop_left]
      simp [hc]
    · intro c rest' hr hc
      subst hr
      simp only [cleanClose, htw, List.drop_left]
      simp [hc]

/-- Witness for C1 at `"<div>t"`: the tag succeeds, the clean close
fails at `t`, and the scanner proceeds into steady-state dispatch on
the same remaining input; plus the clean close cases at concrete
inputs. -/
theorem claimC1_witness :
    run emptyRegistry 30 .start none [60, 100, 105, 118, 62, 116] =
      prependRes [⟨.enter, "mdxJsxFlowTag"⟩, ⟨.exit, "mdxJsxFlowTag"⟩]
        (run emptyRegistry 29 .afterTag (some 62) [116]) ∧
    run emptyRegistry 29 .afterTag none [116] = run emptyRegistry 28 .maybeC none [116] ∧
    cleanClose [32, 32, -3, 120] =
      some ([⟨.enter, "lineSuffix"⟩, ⟨.exit, "lineSuffix"⟩,
             ⟨.enter, "lineEnding"⟩, ⟨.exit, "lineEnding"⟩], 3) ∧
    cleanClose [116] = none := by
  refine ⟨?_, ?_, ?_, ?_⟩
  · exact claimC1_clean_close.1 emptyRegistry 29 none _ _ 5 (by decide)
  · exact claimC1_clean_close.2.2.1 emptyRegistry 28 none [116] (by decide)
  · exact (claimC1_clean_close.2.2.2 [32, 32] [-3, 120] (by decide)
      (by decide)).2.1 (-3) [120] rfl (by decide)
  · exact (claimC1_clean_close.2.2.2 [] [116] (by decide)
      (by decide)).2.2 116 [] rfl (by decide)

/-! ## Claim C2: whitespace-only lines as terminators -/

/-- Claim C2: for `"<div>\n\n"` the scanner succeeds ending the block
after the tag line and leaving the blank line unconsumed; directly
after a clean-closed tag line (`afterTagLineEnding`) a whitespace-only
line terminates the block successfully, whereas after any steady-state
line ending (`afterLineEnding`) a line of only whitespace followed by a
line ending or end of input fails the whole construct via `nok`. -/
theorem claimC2_blank_line :
    (run emptyRegistry 50 .start none [60, 100, 105, 118, 62, -3, -3] =
        .ok [⟨.enter, "mdxJsxFlowTag"⟩, ⟨.exit, "mdxJsxFlowTag"⟩,
             ⟨.enter, "lineEnding"⟩, ⟨.exit, "lineEnding"⟩] [-3]) ∧
    (∀ (amb : Registry) (fuel : Nat) (prev : Option Int) (sp rest : List Int),
        (∀ c ∈ sp, isSpaceCode c = true) →
        (rest = [] ∨ mdLineEnding rest.head? = true) →
        run amb (fuel + 2) .afterLE prev (sp ++ rest) = .nok) ∧
    (∀ (amb : Registry) (fuel : Nat) (prev : Option Int) (sp rest : List Int),
        (∀ c ∈ sp, isSpaceCode c = true) →
        (rest = [] ∨ mdLineEnding rest.head? = true) →
        run amb (fuel + 2) .afterTagLE prev (sp ++ rest) =
          .ok (if sp.isEmpty then [] else
            [⟨.enter, "linePrefix"⟩, ⟨.exit, "linePrefix"⟩]) rest) := by
  have hns : ∀ (rest : List Int), (rest = [] ∨ mdLineEnding rest.head? = true) →
      ∀ y, rest.head? = some y → isSpaceCode y = false := by
    intro rest h y hy
    rcases h with h | h
    · subst h; simp at hy
    · rw [hy] at h
      simp only [mdLineEnding] at h
      simp only [isSpaceCode]
      have : y < -2 := by exact_mod_cast of_decide_eq_true h
      simp
      omega
  have hle : ∀ (rest : List Int), (rest = [] ∨ mdLineEnding rest.head? = true) →
      (mdLineEnding rest.head? = true ∨ rest.isEmpty = true) := by
    intro rest h
    rcases h with h | h
    · subst h; simp
    · exact Or.inl h
  refine ⟨by decide, ?_, ?_⟩
  · intro amb fuel prev sp rest hsp hrest
    cases sp with
    | nil =>
        simp only [List.nil_append, run]
        have hmd : mdSpace rest.head? = false := by
          cases hr : rest.head? with
          | none => rfl
          | some y => simp [mdSpace, hns rest hrest y hr]
        rw [hmd]
        simp only [Bool.false_eq_true, if_false]
        rcases hle rest hrest with h | h <;> simp [h]
    | cons s sp' =>
        have hhead : mdSpace ((s :: sp') ++ rest).head? = true := by
          simp [mdSpace, hsp s (by simp)]
        have htw : ((s :: sp') ++ rest).takeWhile isSpaceCode = s :: sp' :=
          takeWhile_append_of_forall _ rest hsp (hns rest hrest)
        simp only [run, hhead, if_true, htw]
        rw [show ((s :: sp') ++ rest).drop (s :: sp').length = rest from
          List.drop_left _ _]
        have hmd : mdSpace rest.head? = false := by
          cases hr : rest.head? with
          | none => rfl
          | some y => simp [mdSpace, hns rest hrest y hr]
        simp only [run, hmd]
        simp only [Bool.false_eq_true, if_false]
        rcases hle rest hrest with h | h <;> simp [h, prependRes]
  · intro amb fuel prev sp rest hsp hrest
    cases sp with
    | nil =>
        simp only [List.nil_append, run]
        have hmd : mdSpace rest.head? = false := by
          cases hr : rest.head? with
          | none => rfl
          | some y => simp [mdSpace, hns rest hrest y hr]
        rw [hmd]
        simp only [Bool.false_eq_true, if_false]
        rcases hle rest hrest with h | h <;> simp [h]
    | cons s sp' =>
        have hhead : mdSpace ((s :: sp') ++ rest).head? = true := by
          simp [mdSpace, hsp s (by simp)]
        have htw : ((s :: sp') ++ rest).takeWhile isSpaceCode = s :: sp' :=
          takeWhile_append_of_forall _ rest hsp (hns rest hrest)
        simp only [run, hhead, if_true, htw]
        rw [show ((s :: sp') ++ rest).drop (s :: sp').length = rest from
          List.drop_left _ _]
        have hmd : mdSpace rest.head? = false := by
          cases hr : rest.head? with
          | none => rfl
          | some y => simp [mdSpace, hns rest hrest y hr]
        simp only [run, hmd]
        simp only [Bool.false_eq_true, if_false]
        rcases hle rest hrest with h | h <;> simp [h, prependRes]

/-- Witness for C2's universally quantified parts: a line of two spaces
before a line ending fails after a steady-state line ending and
terminates the block after a clean-closed tag line. -/
theorem claimC2_witness :
    run emptyRegistry 7 .afterLE none [32, 32, -3] = .nok ∧
    run emptyRegistry 7 .afterTagLE none [32, 32, -3] =
      .ok [⟨.enter, "linePrefix"⟩, ⟨.exit, "linePrefix"⟩] [-3] := by
  refine ⟨?_, ?_⟩
  · exact claimC2_blank_line.2.1 emptyRegistry 5 none [32, 32] [-3] (by decide)
      (Or.inr (by decide))
  · exact claimC2_blank_line.2.2 emptyRegistry 5 none [32, 32] [-3] (by decide)
      (Or.inr (by decide))

/-! ## Claim C7: interruption by active inline constructs -/

/-- Claim C7: before accumulating a literal-data code, the scanner
consults the overlay registry (the ambient text constructs minus the
three suppressed entries); when some construct registered for the code
has no activation predicate or one accepting the previously consumed
code, data accumulation stops (the open data token is exited without
consuming the code) and the code is dispatched to the construct
attempt instead of being absorbed as literal data. -/
theorem claimC7_interruption :
    ∀ (amb : Registry) (fuel : Nat) (prev : Option Int) (c : Int) (rest : List Int)
      (l : List TextConstruct),
      overlayOf amb c = some (.many l) →
      (∃ k ∈ l, k.prev? = none ∨ ∃ p, k.prev? = some p ∧ p prev = true) →
      c ≠ 60 → c ≠ 123 → ¬ mdLineEnding (some c) = true →
      (run amb (fuel + 1) .dataS prev (c :: rest) =
        prependRes [⟨.exit, "data"⟩] (run amb fuel .tryLocal prev (c :: rest))) ∧
      (run amb (fuel + 1) .tryLocal prev (c :: rest) =
        run amb fuel .tryInline prev (c :: rest)) ∧
      (run amb (fuel + 1) .tryInline prev (c :: rest) =
        (match attemptRecord (overlayOf amb) prev (c :: rest) with
         | some (evs, n) =>
             prependRes evs
               (run amb fuel .tryLocal (prevAfter prev (c :: rest) n) ((c :: rest).drop n))
         | none => run amb fuel .notC prev (c :: rest))) := by
  intro amb fuel prev c rest l hreg hk h60 h123 hle
  have hbr : isBreak (overlayOf amb) prev (some c) = some true := by
    unfold isBreak
    have hcond : ¬ (some c = some 60 ∨ some c = some 123 ∨ (some c : Option Int) = none ∨
        mdLineEnding (some c) = true) := by
      push_neg
      refine ⟨by simpa using h60, by simpa using h123, by simp, hle⟩
    simp only [if_neg hcond, hreg]
    obtain ⟨k, hkl, hp⟩ := hk
    have : l.any (fun k =>
        match k.prev? with
        | none => true
        | some p => p prev) = true := by
      refine List.any_eq_true.mpr ⟨k, hkl, ?_⟩
      rcases hp with hp | ⟨p, hp, hpp⟩
      · simp [hp]
      · simp [hp, hpp]
    rw [this]
  refine ⟨?_, ?_, ?_⟩
  · simp only [run, List.head?]
    rw [hbr]
  · simp only [run, List.head?]
    have e60 : ((some c : Option Int) = some 60) = False := by simp [h60]
    have e123 : ((some c : Option Int) = some 123) = False := by simp [h123]
    simp only [e60, e123, if_false, decide_False, Bool.false_eq_true]
    rw [if_neg (by simpa using hle)]
    simp
  · simp only [run]

/-- Witness for C7: an attention-like construct at `*` (42) with no
activation predicate interrupts data accumulation. -/
theorem claimC7_witness :
    (run ambSample 10 .dataS (some 97) [42] =
      prependRes [⟨.exit, "data"⟩] (run ambSample 9 .tryLocal (some 97) [42])) ∧
    (run ambSample 10 .tryLocal (some 97) [42] =
      run ambSample 9 .tryInline (some 97) [42]) ∧
    (run ambSample 10 .tryInline (some 97) [42] =
      (match attemptRecord (overlayOf ambSample) (some 97) [42] with
       | some (evs, n) =>
           prependRes evs
             (run ambSample 9 .tryLocal (prevAfter (some 97) [42] n) ([42].drop n))
       | none => run ambSample 9 .notC (some 97) [42])) :=
  claimC7_interruption ambSample 9 (some 97) 42 [] [sampleConstruct] rfl
    ⟨sampleConstruct, by simp, Or.inl rfl⟩ (by decide) (by decide) (by decide)

/-! ## Helper lemmas for the Resolver -/

theorem mergeData_nil : mergeData [] = [] := rfl

theorem mergeData_singleton (e : Event) : mergeData [e] = [e] := rfl

theorem mergeData_cons₂ (e1 e2 : Event) (rest : List Event) :
    mergeData (e1 :: e2 :: rest) =
      if e1.tok.type == "data" then mergeRun e1 e2 e2.tok.endPos false rest
      else e1 :: mergeData (e2 :: rest) := by
  simp only [mergeData, mergeRun, mergeGo]

theorem mergeRun_nil (e1 e2 : Event) (p : Point) (tp : Bool) :
    mergeRun e1 e2 p tp [] = emitPair e1 e2 p tp := rfl

theorem mergeRun_single (e1 e2 : Event) (p : Point) (tp : Bool) (f : Event) :
    mergeRun e1 e2 p tp [f] =
      if f.tok.type == "data" then emitPair e1 e2 f.tok.endPos true
      else emitPair e1 e2 p tp ++ [f] := by
  simp only [mergeData, mergeRun, mergeGo]

theorem mergeRun_cons₂ (e1 e2 : Event) (p : Point) (tp : Bool) (f1 f2 : Event)
    (rest : List Event) :
    mergeRun e1 e2 p tp (f1 :: f2 :: rest) =
      if f1.tok.type == "data" then mergeRun e1 e2 f2.tok.endPos true rest
      else emitPair e1 e2 p tp ++ f1 :: mergeData (f2 :: rest) := by
  simp only [mergeData, mergeRun, mergeGo]

/-- Stepping the merge pass over a non-data event. -/
theorem mergeData_cons_not_data {e : Event} (h : ¬ e.tok.type = "data")
    (l : List Event) : mergeData (e :: l) = e :: mergeData l := by
  cases l with
  | nil => rfl
  | cons m ms =>
      rw [mergeData_cons₂]
      simp [h]

theorem wsPass_nil (ch : List Chunk) : wsPass ch [] = [] := rfl

theorem wsPass_single (ch : List Chunk) (e : Event) : wsPass ch [e] = [e] := rfl

theorem wsPass_cons₂ (ch : List Chunk) (a b : Event) (rest : List Event) :
    wsPass ch (a :: b :: rest) =
      if isTrigger a b rest then
        (match rest with
         | [] => processPair ch a b true
         | le1 :: rest2 => processPair ch a b false ++ le1 :: wsPass ch rest2)
      else a :: wsPass ch (b :: rest) := by
  cases rest with
  | nil => simp only [wsPass]
  | cons le1 rest2 => simp only [wsPass]

/-- Stepping the whitespace pass when the window is not a trigger. -/
theorem wsPass_cons_not_trigger {a b : Event} {rest : List Event}
    (h : ¬ isTrigger a b rest = true) (ch : List Chunk) :
    wsPass ch (a :: b :: rest) = a :: wsPass ch (b :: rest) := by
  rw [wsPass_cons₂, if_neg h]

/-- Merging a run of adjacent data pairs appended before a non-data
terminator: the run's pairs are consumed, the kept pair's end becomes
the last data token's end. -/
theorem mergeRun_dataPairs (t : Event) (tail : List Event)
    (ht : ¬ t.tok.type = "data") :
    ∀ (ds : List Token) (e1 e2 : Event) (lastEnd : Point) (twoPlus : Bool),
      (∀ d ∈ ds, d.type = "data") →
      mergeRun e1 e2 lastEnd twoPlus (dataPairs ds ++ t :: tail) =
        emitPair e1 e2 (ds.foldl (fun _ d => d.endPos) lastEnd)
          (twoPlus || !ds.isEmpty) ++ t :: mergeData tail := by
  intro ds
  induction ds with
  | nil =>
      intro e1 e2 lastEnd twoPlus _
      simp only [dataPairs, List.flatMap_nil, List.nil_append, List.foldl_nil,
        List.isEmpty_nil, Bool.not_true, Bool.or_false]
      cases tail with
      | nil =>
          rw [mergeRun_single, if_neg (by simpa using ht), mergeData_nil]
      | cons x xs =>
          rw [mergeRun_cons₂, if_neg (by simpa using ht)]
  | cons d ds' ih =>
      intro e1 e2 lastEnd twoPlus hall
      have hd : d.type = "data" := hall d (by simp)
      have ihh := ih e1 e2 d.endPos true (fun x hx => hall x (by simp [hx]))
      simp only [dataPairs] at ihh
      simp only [dataPairs, List.flatMap_cons, List.cons_append, List.nil_append,
        List.append_assoc]
      rw [mergeRun_cons₂, if_pos (by simp [hd])]
      rw [show ({ kind := Edge.exit, tok := d } : Event).tok.endPos = d.endPos from rfl]
      rw [ihh]
      simp

/-! ## Claim C4: trailing-whitespace classification -/

/-- Claim C4: for a data token directly before a line ending or the end
of the stream, with trailing whitespace run of positive `size` computed
by the backward scan, the run is classified as a hard line break
exactly when the token is not last, no tab occurred, and the size
reaches the fixed minimum of 2 — and as an insignificant line suffix
otherwise; the run is split off as a new token exactly when it does not
cover the whole data token, and the whole token is reclassified in
place when it does.  The whitespace pass applies this at every
triggered position.  Concretely, `"a  \n"` yields a hard break and
`"a \n"` a line suffix. -/
theorem claimC4_whitespace :
    (∀ (ch : List Chunk) (a b : Event) (atEnd : Bool)
        (index bufferIndex : Int) (size : Nat) (tabs : Bool),
        trailScan (sliceStream ch b.tok).reverse 0 false = (index, bufferIndex, size, tabs) →
        0 < size → b.tok.type = "data" →
        ((∃ e ∈ processPair ch a b atEnd, e.tok.type = "hardBreakTrailing") ↔
          (atEnd = false ∧ tabs = false ∧ hardBreakPrefixSizeMin ≤ size)) ∧
        ((processPair ch a b atEnd).length = 2 ↔
          b.tok.start.offset = b.tok.endPos.offset - (size : Int)) ∧
        ((processPair ch a b atEnd).length = 4 ↔
          ¬ b.tok.start.offset = b.tok.endPos.offset - (size : Int))) ∧
    (∀ (ch : List Chunk) (a b : Event) (le1 : Event) (rest2 : List Event),
        isTrigger a b (le1 :: rest2) = true →
        wsPass ch (a :: b :: le1 :: rest2) =
          processPair ch a b false ++ le1 :: wsPass ch rest2) ∧
    (∀ (ch : List Chunk) (a b : Event),
        isTrigger a b [] = true → wsPass ch [a, b] = processPair ch a b true) ∧
    (resolveJsxFlow chA2 [⟨.enter, dTokA2⟩, ⟨.exit, dTokA2⟩, ⟨.enter, leTokA2⟩, ⟨.exit, leTokA2⟩] =
      [⟨.enter, ⟨"data", pt 0 0 0, pt 1 0 1⟩⟩, ⟨.exit, ⟨"data", pt 0 0 0, pt 1 0 1⟩⟩,
       ⟨.enter, ⟨"hardBreakTrailing", pt 1 0 1, pt 3 0 3⟩⟩,
       ⟨.exit, ⟨"hardBreakTrailing", pt 1 0 1, pt 3 0 3⟩⟩,
       ⟨.enter, leTokA2⟩, ⟨.exit, leTokA2⟩]) ∧
    (resolveJsxFlow chA1 [⟨.enter, dTokA1⟩, ⟨.exit, dTokA1⟩, ⟨.enter, leTokA1⟩, ⟨.exit, leTokA1⟩] =
      [⟨.enter, ⟨"data", pt 0 0 0, pt 1 0 1⟩⟩, ⟨.exit, ⟨"data", pt 0 0 0, pt 1 0 1⟩⟩,
       ⟨.enter, ⟨"lineSuffix", pt 1 0 1, pt 2 0 2⟩⟩,
       ⟨.exit, ⟨"lineSuffix", pt 1 0 1, pt 2 0 2⟩⟩,
       ⟨.enter, leTokA1⟩, ⟨.exit, leTokA1⟩]) := by
  refine ⟨?_, ?_, ?_, by decide, by decide⟩
  · intro ch a b atEnd index bufferIndex size tabs hts hpos htype
    unfold processPair
    dsimp only
    rw [hts]
    simp only [if_neg (by omega : ¬ size = 0)]
    by_cases hcls : (atEnd = true ∨ tabs = true ∨ size < hardBreakPrefixSizeMin)
    · rw [if_pos hcls]
      by_cases hsplit : b.tok.start.offset = b.tok.endPos.offset - (size : Int)
      · rw [if_pos hsplit]
        refine ⟨?_, by simp [hsplit], by simp [hsplit]⟩
        simp only [List.mem_cons, List.not_mem_nil]
        constructor
        · rintro ⟨e, he, hty⟩
          rcases he with rfl | rfl | h
          · simp at hty
          · simp at hty
          · simp at h
        · rintro ⟨h1, h2, h3⟩
          rcases hcls with h | h | h
          · rw [h1] at h; simp at h
          · rw [h2] at h; simp at h
          · omega
      · rw [if_neg hsplit]
        refine ⟨?_, by simp [hsplit], by simp [hsplit]⟩
        simp only [List.mem_cons, List.not_mem_nil]
        constructor
        · rintro ⟨e, he, hty⟩
          rcases he with rfl | rfl | rfl | rfl | h
          · rw [htype] at hty; simp at hty
          · rw [htype] at hty; simp at hty
          · simp at hty
          · simp at hty
          · simp at h
        · rintro ⟨h1, h2, h3⟩
          rcases hcls with h | h | h
          · rw [h1] at h; simp at h
          · rw [h2] at h; simp at h
          · omega
    · rw [if_neg hcls]
      push_neg at hcls
      obtain ⟨h1, h2, h3⟩ := hcls
      by_cases hsplit : b.tok.start.offset = b.tok.endPos.offset - (size : Int)
      · rw [if_pos hsplit]
        refine ⟨?_, by simp [hsplit], by simp [hsplit]⟩
        constructor
        · intro _
          exact ⟨by simpa using h1, by simpa using h2, by omega⟩
        · intro _
          exact ⟨_, List.mem_cons_self _ _, rfl⟩
      · rw [if_neg hsplit]
        refine ⟨?_, by simp [hsplit], by simp [hsplit]⟩
        constructor
        · intro _
          exact ⟨by simpa using h1, by simpa using h2, by omega⟩
        · intro _
          exact ⟨_, List.mem_cons_of_mem _ (List.mem_cons_of_mem _
            (List.mem_cons_self _ _)), rfl⟩
  · intro ch a b le1 rest2 h
    rw [wsPass_cons₂, if_pos h]
  · intro ch a b h
    rw [wsPass_cons₂, if_pos h]

/-- Witness for C4's quantified parts at the `"a  \n"` instance: the
backward scan counts two spaces, the classification gives a hard break,
the run does not cover the whole token (split), and the whitespace pass
dispatches at the trigger. -/
theorem claimC4_witness :
    ((∃ e ∈ processPair chA2 ⟨.enter, dTokA2⟩ ⟨.exit, dTokA2⟩ false,
        e.tok.type = "hardBreakTrailing") ↔
      (false = false ∧ false = false ∧ hardBreakPrefixSizeMin ≤ 2)) ∧
    ((processPair chA2 ⟨.enter, dTokA2⟩ ⟨.exit, dTokA2⟩ false).length = 4 ↔
      ¬ dTokA2.start.offset = dTokA2.endPos.offset - ((2 : Nat) : Int)) ∧
    wsPass chA2 [⟨.enter, dTokA2⟩, ⟨.exit, dTokA2⟩, ⟨.enter, leTokA2⟩, ⟨.exit, leTokA2⟩] =
      processPair chA2 ⟨.enter, dTokA2⟩ ⟨.exit, dTokA2⟩ false ++
        ⟨.enter, leTokA2⟩ :: wsPass chA2 [⟨.exit, leTokA2⟩] := by
  have h := claimC4_whitespace.1 chA2 ⟨.enter, dTokA2⟩ ⟨.exit, dTokA2⟩ false
    0 1 2 false (by decide) (by decide) (by decide)
  exact ⟨h.1, h.2.2, claimC4_whitespace.2.1 chA2 ⟨.enter, dTokA2⟩ ⟨.exit, dTokA2⟩
    ⟨.enter, leTokA2⟩ [⟨.exit, leTokA2⟩] (by decide)⟩

/-! ## Claim C5: the merge pass collapses burst runs -/

/-- Claim C5: every maximal run of two or more adjacent data-token
enter/exit pairs collapses into a single data token whose start is the
first token's start and whose end is the last token's end (a run of one
pair is left alone); consequently the resolved event list for
`"<div>hi</div>\n"` contains exactly one data token covering `"hi"`,
for every burst decomposition of `"hi"` the scanner may have emitted. -/
theorem claimC5_merge_pass :
    (∀ (d : Token) (ds : List Token) (t : Event) (tail : List Event),
        d.type = "data" → (∀ x ∈ ds, x.type = "data") → ¬ t.tok.type = "data" →
        mergeData (dataPairs (d :: ds) ++ t :: tail) =
          [⟨.enter, ⟨"data", d.start, ds.foldl (fun _ x => x.endPos) d.endPos⟩⟩,
           ⟨.exit, ⟨"data", d.start, ds.foldl (fun _ x => x.endPos) d.endPos⟩⟩] ++
            t :: mergeData tail) ∧
    (∀ (d : Token) (ds : List Token),
        d.type = "data" → (∀ x ∈ ds, x.type = "data") →
        d.start = pH → ds.foldl (fun _ x => x.endPos) d.endPos = pI →
        resolveJsxFlow chDivHi (preDivHi ++ dataPairs (d :: ds) ++ postDivHi) =
          preDivHi ++ [⟨.enter, ⟨"data", pH, pI⟩⟩, ⟨.exit, ⟨"data", pH, pI⟩⟩] ++ postDivHi) ∧
    (((preDivHi ++ ([⟨.enter, ⟨"data", pH, pI⟩⟩, ⟨.exit, ⟨"data", pH, pI⟩⟩] : List Event)
        ++ postDivHi).filter
          (fun e => e.kind == Edge.enter && e.tok.type == "data")).length = 1) := by
  have hgen : ∀ (d : Token) (ds : List Token) (t : Event) (tail : List Event),
      d.type = "data" → (∀ x ∈ ds, x.type = "data") → ¬ t.tok.type = "data" →
      mergeData (dataPairs (d :: ds) ++ t :: tail) =
        [⟨.enter, ⟨"data", d.start, ds.foldl (fun _ x => x.endPos) d.endPos⟩⟩,
         ⟨.exit, ⟨"data", d.start, ds.foldl (fun _ x => x.endPos) d.endPos⟩⟩] ++
          t :: mergeData tail := by
    intro d ds t tail hd hds ht
    simp only [dataPairs, List.flatMap_cons, List.cons_append, List.nil_append,
      List.append_assoc]
    rw [mergeData_cons₂, if_pos (by simp [hd])]
    rw [show ({ kind := Edge.exit, tok := d } : Event).tok.endPos = d.endPos from rfl]
    have := mergeRun_dataPairs t tail ht ds ⟨.enter, d⟩ ⟨.exit, d⟩ d.endPos false hds
    simp only [dataPairs] at this
    rw [this]
    cases hds' : ds.isEmpty with
    | true =>
        have : ds = [] := by simpa using hds'
        subst this
        simp only [List.foldl_nil, Bool.not_true, Bool.or_false, emitPair, if_neg
          (by simp : ¬ false = true)]
        have : (⟨"data", d.start, d.endPos⟩ : Token) = d := by
          cases d with
          | mk ty st en => simp_all
        rw [this]
        simp
    | false =>
        cases d with
        | mk ty st en => simp_all [emitPair, setEnd]
  refine ⟨hgen, ?_, by decide⟩
  intro d ds hd hds hstart hend
  unfold resolveJsxFlow
  have h1 : mergeData (preDivHi ++ dataPairs (d :: ds) ++ postDivHi) =
      preDivHi ++ [⟨.enter, ⟨"data", pH, pI⟩⟩, ⟨.exit, ⟨"data", pH, pI⟩⟩] ++ postDivHi := by
    simp only [preDivHi, postDivHi, List.cons_append, List.nil_append, List.append_assoc]
    rw [mergeData_cons_not_data (by decide), mergeData_cons_not_data (by decide)]
    have := hgen d ds ⟨.enter, tagCloseTok⟩
      [⟨.exit, tagCloseTok⟩, ⟨.enter, leTokDiv⟩, ⟨.exit, leTokDiv⟩] hd hds (by decide)
    rw [this, hstart, hend]
    rw [mergeData_cons_not_data (by decide), mergeData_cons_not_data (by decide),
      mergeData_singleton]
    simp
  rw [h1]
  decide

/-- Witness for C5 at the two-burst decomposition of `"hi"`. -/
theorem claimC5_witness :
    resolveJsxFlow chDivHi (preDivHi ++ dataPairs burstsHi ++ postDivHi) =
      preDivHi ++ [⟨.enter, ⟨"data", pH, pI⟩⟩, ⟨.exit, ⟨"data", pH, pI⟩⟩] ++ postDivHi :=
  claimC5_merge_pass.2.1 ⟨"data", pt 5 0 5, pt 6 0 6⟩ [⟨"data", pt 6 0 6, pt 7 0 7⟩]
    (by decide) (by decide) (by decide) (by decide)

/-! ## Helper lemmas towards Resolver idempotence -/

theorem setEnd_type (e : Event) (p : Point) : (setEnd e p).tok.type = e.tok.type := rfl

theorem setEnd_kind (e : Event) (p : Point) : (setEnd e p).kind = e.kind := rfl

theorem emitPair_length (e1 e2 : Event) (p : Point) (tp : Bool) :
    (emitPair e1 e2 p tp).length = 2 := by
  cases tp <;> simp [emitPair]

/-- Joint length bound for both modes of the merge pass. -/
theorem merge_length_aux : ∀ (n : Nat) (es : List Event), es.length ≤ n →
    (mergeData es).length ≤ es.length ∧
    (∀ e1 e2 p tp, (mergeRun e1 e2 p tp es).length ≤ es.length + 2) := by
  intro n
  induction n with
  | zero =>
      intro es h
      have hes : es = [] := by
        cases es with
        | nil => rfl
        | cons x xs => simp at h
      subst hes
      exact ⟨by simp [mergeData_nil], fun e1 e2 p tp => by
        simp [mergeRun_nil, emitPair_length]⟩
  | succ n ih =>
      intro es h
      cases es with
      | nil =>
          exact ⟨by simp [mergeData_nil], fun e1 e2 p tp => by
            simp [mergeRun_nil, emitPair_length]⟩
      | cons x xs =>
          cases xs with
          | nil =>
              refine ⟨by simp [mergeData_singleton], fun e1 e2 p tp => ?_⟩
              rw [mergeRun_single]
              by_cases hx : (x.tok.type == "data") = true
              · rw [if_pos hx]
                simp [emitPair_length]
              · rw [if_neg hx]
                simp [emitPair_length]
          | cons y ys =>
              have hys : (y :: ys).length ≤ n := by
                simp at h
                simp
                omega
              have hys' : ys.length ≤ n := by
                simp at h ⊢
                omega
              constructor
              · rw [mergeData_cons₂]
                by_cases hx : (x.tok.type == "data") = true
                · rw [if_pos hx]
                  have := (ih ys hys').2 x y y.tok.endPos false
                  simp only [List.length_cons]
                  omega
                · rw [if_neg hx]
                  have := (ih (y :: ys) hys).1
                  simp only [List.length_cons] at this ⊢
                  omega
              · intro e1 e2 p tp
                rw [mergeRun_cons₂]
                by_cases hx : (x.tok.type == "data") = true
                · rw [if_pos hx]
                  have := (ih ys hys').2 e1 e2 y.tok.endPos true
                  simp only [List.length_cons]
                  omega
                · rw [if_neg hx]
                  have := (ih (y :: ys) hys).1
                  simp only [List.length_append, List.length_cons,
                    emitPair_length] at *
                  omega

theorem mergeData_length (es : List Event) : (mergeData es).length ≤ es.length :=
  (merge_length_aux es.length es le_rfl).1

theorem mergeRun_length (e1 e2 : Event) (p : Point) (tp : Bool) (es : List Event) :
    (mergeRun e1 e2 p tp es).length ≤ es.length + 2 :=
  (merge_length_aux es.length es le_rfl).2 e1 e2 p tp

/-- A single data pair is a fixed point of the merge pass. -/
theorem mergeData_pair {x1 : Event} (x2 : Event) (h : x1.tok.type = "data") :
    mergeData [x1, x2] = [x1, x2] := by
  rw [mergeData_cons₂, if_pos (by simp [h]), mergeRun_nil]
  simp [emitPair]

/-- The pair kept for a collapsed run is a fixed point of the merge
pass. -/
theorem mergeData_emitPair {e1 : Event} (e2 : Event) (p : Point) (tp : Bool)
    (h : e1.tok.type = "data") :
    mergeData (emitPair e1 e2 p tp) = emitPair e1 e2 p tp := by
  cases tp with
  | true =>
      simp only [emitPair, if_pos rfl]
      exact mergeData_pair _ (by rw [setEnd_type]; exact h)
  | false =>
      simp only [emitPair, Bool.false_eq_true, if_false]
      exact mergeData_pair _ h

/-- Stepping the merge pass over a kept pair followed by a non-data
terminator. -/
theorem mergeData_emitPair_cons {e1 : Event} (e2 : Event) (p : Point) (tp : Bool)
    {t : Event} (M : List Event) (h : e1.tok.type = "data")
    (ht : ¬ t.tok.type = "data") :
    mergeData (emitPair e1 e2 p tp ++ t :: M) =
      emitPair e1 e2 p tp ++ t :: mergeData M := by
  have main : ∀ (x1 x2 : Event), x1.tok.type = "data" →
      mergeData (x1 :: x2 :: t :: M) = x1 :: x2 :: t :: mergeData M := by
    intro x1 x2 hx
    rw [mergeData_cons₂, if_pos (by simp [hx])]
    cases M with
    | nil =>
        rw [mergeRun_single, if_neg (by simp [ht])]
        simp [emitPair, mergeData_nil]
    | cons m ms =>
        rw [mergeRun_cons₂, if_neg (by simp [ht])]
        simp [emitPair]
  cases tp with
  | true =>
      simp only [emitPair, if_pos rfl, List.cons_append, List.nil_append]
      exact main _ _ (by rw [setEnd_type]; exact h)
  | false =>
      simp only [emitPair, Bool.false_eq_true, if_false, List.cons_append,
        List.nil_append]
      exact main _ _ h

/-- Joint idempotence of the merge pass: re-merging merged output (and
re-merging the output of an in-run continuation whose kept pair is a
data pair) changes nothing. -/
theorem merge_idem_aux : ∀ (n : Nat) (es : List Event), es.length ≤ n →
    (mergeData (mergeData es) = mergeData es) ∧
    (∀ e1 e2 p tp, e1.tok.type = "data" →
       mergeData (mergeRun e1 e2 p tp es) = mergeRun e1 e2 p tp es) := by
  intro n
  induction n with
  | zero =>
      intro es h
      have hes : es = [] := by
        cases es with
        | nil => rfl
        | cons x xs => simp at h
      subst hes
      refine ⟨by simp [mergeData_nil], fun e1 e2 p tp h1 => ?_⟩
      rw [mergeRun_nil]
      exact mergeData_emitPair _ _ _ h1
  | succ n ih =>
      intro es h
      cases es with
      | nil =>
          refine ⟨by simp [mergeData_nil], fun e1 e2 p tp h1 => ?_⟩
          rw [mergeRun_nil]
          exact mergeData_emitPair _ _ _ h1
      | cons x xs =>
          cases xs with
          | nil =>
              refine ⟨by simp [mergeData_singleton], fun e1 e2 p tp h1 => ?_⟩
              rw [mergeRun_single]
              by_cases hx : (x.tok.type == "data") = true
              · rw [if_pos hx]
                exact mergeData_emitPair _ _ _ h1
              · rw [if_neg hx]
                exact mergeData_emitPair_cons _ _ _ [] h1 (by simpa using hx)
          | cons y ys =>
              have hys : (y :: ys).length ≤ n := by
                simp at h ⊢
                omega
              have hys' : ys.length ≤ n := by
                simp at h ⊢
                omega
              constructor
              · rw [mergeData_cons₂]
                by_cases hx : (x.tok.type == "data") = true
                · rw [if_pos hx]
                  exact (ih ys hys').2 x y y.tok.endPos false (by simpa using hx)
                · rw [if_neg hx]
                  rw [mergeData_cons_not_data (by simpa using hx)]
                  rw [(ih (y :: ys) hys).1]
              · intro e1 e2 p tp h1
                rw [mergeRun_cons₂]
                by_cases hx : (x.tok.type == "data") = true
                · rw [if_pos hx]
                  exact (ih ys hys').2 e1 e2 y.tok.endPos true h1
                · rw [if_neg hx]
                  rw [mergeData_emitPair_cons _ _ _ _ h1 (by simpa using hx)]
                  rw [(ih (y :: ys) hys).1]

/-- The merge pass is idempotent. -/
theorem mergeData_idem (es : List Event) : mergeData (mergeData es) = mergeData es :=
  (merge_idem_aux es.length es le_rfl).1

/-- Unfolding of the whitespace-pass trigger condition. -/
theorem isTrigger_iff (a b : Event) (rest : List Event) :
    isTrigger a b rest = true ↔
      a.kind = Edge.enter ∧ b.kind = Edge.exit ∧ a.tok = b.tok ∧
        b.tok.type = "data" ∧
        (rest = [] ∨ ∃ e rest2, rest = e :: rest2 ∧ e.tok.type = "lineEnding") := by
  unfold isTrigger
  cases rest with
  | nil => simp [and_assoc]
  | cons e rest2 =>
      simp only [Bool.and_eq_true, beq_iff_eq]
      constructor
      · rintro ⟨⟨⟨⟨h1, h2⟩, h3⟩, h4⟩, h5⟩
        exact ⟨h1, h2, h3, h4, Or.inr ⟨e, rest2, rfl, h5⟩⟩
      · rintro ⟨h1, h2, h3, h4, h5⟩
        rcases h5 with h5 | ⟨e', rest2', he, h5⟩
        · simp at h5
        · cases he
          exact ⟨⟨⟨⟨h1, h2⟩, h3⟩, h4⟩, h5⟩

theorem isTrigger_false_of_a_not_data {a : Event} (h : ¬ a.tok.type = "data")
    (b : Event) (rest : List Event) : isTrigger a b rest = false := by
  by_contra hc
  rw [Bool.not_eq_false, isTrigger_iff] at hc
  obtain ⟨_, _, h3, h4, _⟩ := hc
  rw [h3] at h
  exact h h4

theorem isTrigger_false_of_b_not_data (a : Event) {b : Event}
    (h : ¬ b.tok.type = "data") (rest : List Event) : isTrigger a b rest = false := by
  by_contra hc
  rw [Bool.not_eq_false, isTrigger_iff] at hc
  exact h hc.2.2.2.1

theorem isTrigger_false_of_head (a b : Event) {e : Event} {rest2 : List Event}
    (h : ¬ e.tok.type = "lineEnding") : isTrigger a b (e :: rest2) = false := by
  by_contra hc
  rw [Bool.not_eq_false, isTrigger_iff] at hc
  rcases hc.2.2.2.2 with h5 | ⟨e', rest2', he, h5⟩
  · simp at h5
  · cases he
    exact h h5

theorem isTrigger_false_of_b_kind (a : Event) {b : Event}
    (h : ¬ b.kind = Edge.exit) (rest : List Event) : isTrigger a b rest = false := by
  by_contra hc
  rw [Bool.not_eq_false, isTrigger_iff] at hc
  exact h hc.2.1

/-- The three shapes of the output of `processPair`: unchanged pair, a
whole-token reclassification into a suffix pair, or the shortened data
pair followed by the suffix pair. -/
theorem processPair_shape (ch : List Chunk) (a b : Event) (atEnd : Bool) :
    processPair ch a b atEnd = [a, b] ∨
    (∃ ntok : Token, ¬ ntok.type = "data" ∧ ¬ ntok.type = "lineEnding" ∧
       processPair ch a b atEnd = [⟨.enter, ntok⟩, ⟨.exit, ntok⟩]) ∨
    (∃ (tStart : Point) (ntok : Token),
       ¬ ntok.type = "data" ∧ ¬ ntok.type = "lineEnding" ∧
       processPair ch a b atEnd =
         [⟨.enter, { b.tok with endPos := tStart }⟩,
          ⟨.exit, { b.tok with endPos := tStart }⟩,
          ⟨.enter, ntok⟩, ⟨.exit, ntok⟩]) := by
  unfold processPair
  dsimp only
  rcases hts : trailScan (sliceStream ch b.tok).reverse 0 false with
    ⟨index, bufferIndex, size, tabs⟩
  by_cases hsz : size = 0
  · rw [if_pos hsz]
    exact Or.inl rfl
  · rw [if_neg hsz]
    by_cases hcls : (atEnd = true ∨ tabs = true ∨ size < hardBreakPrefixSizeMin)
    · rw [if_pos hcls]
      by_cases hsplit : b.tok.start.offset = b.tok.endPos.offset - (size : Int)
      · rw [if_pos hsplit]
        exact Or.inr (Or.inl ⟨_, by simp, by simp, rfl⟩)
      · rw [if_neg hsplit]
        exact Or.inr (Or.inr ⟨_, _, by simp, by simp, rfl⟩)
    · rw [if_neg hcls]
      by_cases hsplit : b.tok.start.offset = b.tok.endPos.offset - (size : Int)
      · rw [if_pos hsplit]
        exact Or.inr (Or.inl ⟨_, by simp, by simp, rfl⟩)
      · rw [if_neg hsplit]
        exact Or.inr (Or.inr ⟨_, _, by simp, by simp, rfl⟩)

/-- Stepping the whitespace pass at a trigger directly before the end
of the list. -/
theorem wsPass_trigger_nil (ch : List Chunk) (a b : Event)
    (h : isTrigger a b [] = true) :
    wsPass ch [a, b] = processPair ch a b true := by
  rw [wsPass_cons₂, if_pos h]

/-- Stepping the whitespace pass at a trigger before a line ending. -/
theorem wsPass_trigger_cons (ch : List Chunk) (a b le1 : Event) (rest2 : List Event)
    (h : isTrigger a b (le1 :: rest2) = true) :
    wsPass ch (a :: b :: le1 :: rest2) =
      processPair ch a b false ++ le1 :: wsPass ch rest2 := by
  rw [wsPass_cons₂, if_pos h]

/-- Head structure of the whitespace pass on a non-empty list: the head
keeps its boundary kind, and is either the old head unchanged or (when
the head window was a trigger) an enter event whose token is not a line
ending. -/
theorem wsPass_head (ch : List Chunk) (x : Event) (xs : List Event) :
    ∃ z zs, wsPass ch (x :: xs) = z :: zs ∧ z.kind = x.kind ∧
      (z = x ∨ (x.kind = Edge.enter ∧ ¬ z.tok.type = "lineEnding")) := by
  cases xs with
  | nil => exact ⟨x, [], wsPass_single ch x, rfl, Or.inl rfl⟩
  | cons y rest =>
      by_cases htr : isTrigger x y rest = true
      · have hiff := (isTrigger_iff x y rest).mp htr
        have hxk : x.kind = Edge.enter := hiff.1
        have hyt : y.tok.type = "data" := hiff.2.2.2.1
        cases rest with
        | nil =>
            rw [wsPass_trigger_nil ch x y htr]
            rcases processPair_shape ch x y true with hpp | ⟨ntok, hn1, hn2, hpp⟩ |
                ⟨tS, ntok, hn1, hn2, hpp⟩
            · rw [hpp]
              exact ⟨x, [y], rfl, rfl, Or.inl rfl⟩
            · rw [hpp]
              refine ⟨⟨.enter, ntok⟩, _, rfl, ?_, Or.inr ⟨hxk, hn2⟩⟩
              rw [hxk]
            · rw [hpp]
              refine ⟨⟨.enter, { y.tok with endPos := tS }⟩, _, rfl, ?_,
                Or.inr ⟨hxk, ?_⟩⟩
              · rw [hxk]
              · simp [hyt]
        | cons le1 rest2 =>
            rw [wsPass_trigger_cons ch x y le1 rest2 htr]
            rcases processPair_shape ch x y false with hpp | ⟨ntok, hn1, hn2, hpp⟩ |
                ⟨tS, ntok, hn1, hn2, hpp⟩
            · rw [hpp]
              exact ⟨x, _, rfl, rfl, Or.inl rfl⟩
            · rw [hpp]
              refine ⟨⟨.enter, ntok⟩, _, rfl, ?_, Or.inr ⟨hxk, hn2⟩⟩
              rw [hxk]
            · rw [hpp]
              refine ⟨⟨.enter, { y.tok with endPos := tS }⟩, _, rfl, ?_,
                Or.inr ⟨hxk, ?_⟩⟩
              · rw [hxk]
              · simp [hyt]
      · rw [wsPass_cons_not_trigger htr]
        exact ⟨x, _, rfl, rfl, Or.inl rfl⟩

/-- The whitespace pass never shrinks a non-empty list to nothing. -/
theorem wsPass_ne_nil (ch : List Chunk) (x : Event) (xs : List Event) :
    wsPass ch (x :: xs) ≠ [] := by
  obtain ⟨z, zs, hz, _, _⟩ := wsPass_head ch x xs
  rw [hz]
  simp

theorem wsPass_cons_of_false {a b : Event} {rest : List Event}
    (h : isTrigger a b rest = false) (ch : List Chunk) :
    wsPass ch (a :: b :: rest) = a :: wsPass ch (b :: rest) :=
  wsPass_cons_not_trigger (by simp [h]) ch

/-- Stepping the whitespace pass over a line-ending-typed event whose
tail is already a fixed point. -/
theorem wsPass_le_cons {ch : List Chunk} {le1 : Event} {W : List Event}
    (hle : le1.tok.type = "lineEnding") (hW : wsPass ch W = W) :
    wsPass ch (le1 :: W) = le1 :: W := by
  cases hWc : W with
  | nil => exact wsPass_single ch le1
  | cons w ws =>
      rw [wsPass_cons_of_false (isTrigger_false_of_a_not_data (by simp [hle]) w ws) ch]
      rw [← hWc, hW]

/-- The whitespace pass is idempotent (strong induction on length). -/
theorem wsPass_idem_aux : ∀ (n : Nat) (ch : List Chunk) (es : List Event),
    es.length ≤ n → wsPass ch (wsPass ch es) = wsPass ch es := by
  intro n
  induction n with
  | zero =>
      intro ch es h
      have : es = [] := by
        cases es with
        | nil => rfl
        | cons x xs => simp at h
      subst this
      simp [wsPass_nil]
  | succ n ih =>
      intro ch es h
      cases es with
      | nil => simp [wsPass_nil]
      | cons a xs =>
        cases xs with
        | nil => simp [wsPass_single]
        | cons b rest =>
          by_cases htr : isTrigger a b rest = true
          · obtain ⟨hak, hbk, htok, hbt, hrest⟩ := (isTrigger_iff a b rest).mp htr
            cases rest with
            | nil =>
                rw [wsPass_trigger_nil ch a b htr]
                rcases processPair_shape ch a b true with hpp | ⟨ntok, hn1, hn2, hpp⟩ |
                    ⟨tS, ntok, hn1, hn2, hpp⟩
                · rw [hpp, wsPass_trigger_nil ch a b htr, hpp]
                · rw [hpp]
                  rw [wsPass_cons_of_false
                    (isTrigger_false_of_b_not_data ⟨.enter, ntok⟩ hn1 []) ch]
                  rw [wsPass_single]
                · rw [hpp]
                  rw [wsPass_cons_of_false
                    (isTrigger_false_of_head _ _ (e := ⟨.enter, ntok⟩) hn2) ch]
                  rw [wsPass_cons_of_false
                    (isTrigger_false_of_b_not_data _ (b := ⟨.enter, ntok⟩) hn1 _) ch]
                  rw [wsPass_cons_of_false
                    (isTrigger_false_of_b_not_data _ (b := ⟨.exit, ntok⟩) hn1 _) ch]
                  rw [wsPass_single]
            | cons le1 rest2 =>
                have hle : le1.tok.type = "lineEnding" := by
                  rcases hrest with hz | ⟨e, r2, heq, hty⟩
                  · simp at hz
                  · cases heq
                    exact hty
                have IHr : wsPass ch (wsPass ch rest2) = wsPass ch rest2 := by
                  refine ih ch rest2 ?_
                  simp at h ⊢
                  omega
                have hstep : wsPass ch (le1 :: wsPass ch rest2) =
                    le1 :: wsPass ch rest2 := wsPass_le_cons hle IHr
                rw [wsPass_trigger_cons ch a b le1 rest2 htr]
                rcases processPair_shape ch a b false with hpp | ⟨ntok, hn1, hn2, hpp⟩ |
                    ⟨tS, ntok, hn1, hn2, hpp⟩
                · rw [hpp]
                  have htr2 : isTrigger a b (le1 :: wsPass ch rest2) = true :=
                    (isTrigger_iff _ _ _).mpr
                      ⟨hak, hbk, htok, hbt, Or.inr ⟨le1, _, rfl, hle⟩⟩
                  simp only [List.cons_append, List.nil_append]
                  rw [wsPass_trigger_cons ch a b le1 (wsPass ch rest2) htr2, hpp, IHr]
                  simp
                · rw [hpp]
                  simp only [List.cons_append, List.nil_append]
                  rw [wsPass_cons_of_false
                    (isTrigger_false_of_b_not_data _ (b := ⟨.exit, ntok⟩) hn1 _) ch]
                  rw [wsPass_cons_of_false
                    (isTrigger_false_of_b_not_data _ (b := le1) (by simp [hle]) _) ch]
                  rw [hstep]
                · rw [hpp]
                  simp only [List.cons_append, List.nil_append]
                  rw [wsPass_cons_of_false
                    (isTrigger_false_of_head _ _ (e := ⟨.enter, ntok⟩) hn2) ch]
                  rw [wsPass_cons_of_false
                    (isTrigger_false_of_b_not_data _ (b := ⟨.enter, ntok⟩) hn1 _) ch]
                  rw [wsPass_cons_of_false
                    (isTrigger_false_of_b_not_data _ (b := ⟨.exit, ntok⟩) hn1 _) ch]
                  rw [wsPass_cons_of_false
                    (isTrigger_false_of_b_not_data _ (b := le1) (by simp [hle]) _) ch]
                  rw [hstep]
          · rw [wsPass_cons_not_trigger htr]
            obtain ⟨z, zs, hW, hzk, hz⟩ := wsPass_head ch b rest
            have IHW : wsPass ch (wsPass ch (b :: rest)) = wsPass ch (b :: rest) := by
              refine ih ch (b :: rest) ?_
              simp at h ⊢
              omega
            have hnt : isTrigger a z zs = false := by
              by_contra hc
              rw [Bool.not_eq_false, isTrigger_iff] at hc
              obtain ⟨hak, hzex, hatok, hzt, hc5⟩ := hc
              have hbex : b.kind = Edge.exit := by rw [← hzk]; exact hzex
              rcases hz with hzb | ⟨hbe, _⟩
              · subst hzb
                have hc5' : ¬ (rest = [] ∨
                    ∃ e r2, rest = e :: r2 ∧ e.tok.type = "lineEnding") := by
                  intro hor
                  exact htr ((isTrigger_iff a z rest).mpr
                    ⟨hak, hbex, hatok, hzt, hor⟩)
                push_neg at hc5'
                obtain ⟨hne, hall⟩ := hc5'
                cases hr : rest with
                | nil => exact hne hr
                | cons r0 rest' =>
                    subst hr
                    have hr0 : ¬ r0.tok.type = "lineEnding" := hall r0 rest' rfl
                    by_cases htr2 : isTrigger z r0 rest' = true
                    · have := ((isTrigger_iff z r0 rest').mp htr2).1
                      rw [hbex] at this
                      simp at this
                    · have hWeq : wsPass ch (z :: r0 :: rest') =
                          z :: wsPass ch (r0 :: rest') :=
                        wsPass_cons_not_trigger htr2 ch
                      rw [hWeq] at hW
                      have hzs : zs = wsPass ch (r0 :: rest') := (List.cons.injEq _ _ _ _
                        |>.mp hW.symm).2
                      obtain ⟨z2, zs2, hz2eq, _, hz2⟩ := wsPass_head ch r0 rest'
                      rw [hz2eq] at hzs
                      rcases hc5 with hzs0 | ⟨e, r2, hzse, hety⟩
                      · rw [hzs0] at hzs
                        simp at hzs
                      · rw [hzse] at hzs
                        have he2 : e = z2 := (List.cons.injEq _ _ _ _ |>.mp hzs).1
                        subst he2
                        rcases hz2 with rfl | ⟨_, hz2t⟩
                        · exact hr0 hety
                        · exact hz2t hety
              · rw [hbe] at hbex
                simp at hbex
            rw [hW, wsPass_cons_of_false hnt ch, ← hW, IHW]

/-- The whitespace pass is idempotent. -/
theorem wsPass_idem (ch : List Chunk) (es : List Event) :
    wsPass ch (wsPass ch es) = wsPass ch es :=
  wsPass_idem_aux es.length ch es le_rfl

/-- A non-data head of a merge fixed point can be peeled off. -/
theorem mergeFree_tail_of_not_data {e : Event} (h : ¬ e.tok.type = "data")
    {l : List Event} (hm : mergeData (e :: l) = e :: l) : mergeData l = l := by
  rw [mergeData_cons_not_data h] at hm
  exact ((List.cons.injEq _ _ _ _).mp hm).2

/-- In a merge fixed point, a data pair is followed by a non-data
event (otherwise the merge pass would have collapsed the run). -/
theorem mergeFree_third_not_data {a : Event} (ha : a.tok.type = "data")
    {b f1 : Event} {L : List Event}
    (hm : mergeData (a :: b :: f1 :: L) = a :: b :: f1 :: L) :
    ¬ f1.tok.type = "data" := by
  intro hf
  rw [mergeData_cons₂, if_pos (by simp [ha])] at hm
  cases L with
  | nil =>
      rw [mergeRun_single, if_pos (by simp [hf])] at hm
      have := congrArg List.length hm
      simp [emitPair_length] at this
  | cons f2 rest =>
      rw [mergeRun_cons₂, if_pos (by simp [hf])] at hm
      have h1 := mergeRun_length a b f2.tok.endPos true rest
      have h2 := congrArg List.length hm
      simp only [List.length_cons] at h2
      omega

/-- In a merge fixed point, the sublist after a data pair and its
non-data successor is again a fixed point. -/
theorem mergeFree_tail₂ {a b f1 f2 : Event} {rest : List Event}
    (ha : a.tok.type = "data") (hf1 : ¬ f1.tok.type = "data")
    (hm : mergeData (a :: b :: f1 :: f2 :: rest) = a :: b :: f1 :: f2 :: rest) :
    mergeData (f2 :: rest) = f2 :: rest := by
  rw [mergeData_cons₂, if_pos (by simp [ha]), mergeRun_cons₂,
    if_neg (by simp [hf1])] at hm
  simp only [emitPair, Bool.false_eq_true, if_false, List.cons_append,
    List.nil_append, List.cons.injEq, true_and] at hm
  exact hm

/-- The whitespace pass preserves merge fixed points: output of the
merge pass stays merged after whitespace reclassification. -/
theorem wsPass_mergeFree_aux : ∀ (n : Nat) (ch : List Chunk) (es : List Event),
    es.length ≤ n → mergeData es = es →
    mergeData (wsPass ch es) = wsPass ch es := by
  intro n
  induction n with
  | zero =>
      intro ch es h _
      have : es = [] := by
        cases es with
        | nil => rfl
        | cons x xs => simp at h
      subst this
      simp [wsPass_nil, mergeData_nil]
  | succ n ih =>
      intro ch es h hm
      cases es with
      | nil => simp [wsPass_nil, mergeData_nil]
      | cons a xs =>
        cases xs with
        | nil => simp [wsPass_single, mergeData_singleton]
        | cons b rest =>
          by_cases htr : isTrigger a b rest = true
          · obtain ⟨hak, hbk, htok, hbt, hrest⟩ := (isTrigger_iff a b rest).mp htr
            have hat : a.tok.type = "data" := by rw [htok]; exact hbt
            cases rest with
            | nil =>
                rw [wsPass_trigger_nil ch a b htr]
                rcases processPair_shape ch a b true with hpp | ⟨ntok, hn1, hn2, hpp⟩ |
                    ⟨tS, ntok, hn1, hn2, hpp⟩
                · rw [hpp]
                  exact hm
                · rw [hpp]
                  rw [mergeData_cons_not_data (by simpa using hn1),
                    mergeData_singleton]
                · rw [hpp]
                  rw [mergeData_cons₂, if_pos (by simp [hbt])]
                  rw [mergeRun_cons₂, if_neg (by simpa using hn1)]
                  rw [mergeData_singleton]
                  simp [emitPair]
            | cons le1 rest2 =>
                have hle : le1.tok.type = "lineEnding" := by
                  rcases hrest with hz | ⟨e, r2, heq, hty⟩
                  · simp at hz
                  · cases heq
                    exact hty
                have hle' : ¬ le1.tok.type = "data" := by simp [hle]
                have hWfree : mergeData (wsPass ch rest2) = wsPass ch rest2 := by
                  cases rest2 with
                  | nil => simp [wsPass_nil, mergeData_nil]
                  | cons r rs =>
                      have hfree : mergeData (r :: rs) = r :: rs :=
                        mergeFree_tail₂ hat hle' hm
                      refine ih ch (r :: rs) ?_ hfree
                      simp at h ⊢
                      omega
                have hleW : mergeData (le1 :: wsPass ch rest2) =
                    le1 :: wsPass ch rest2 := by
                  rw [mergeData_cons_not_data hle', hWfree]
                rw [wsPass_trigger_cons ch a b le1 rest2 htr]
                rcases processPair_shape ch a b false with hpp | ⟨ntok, hn1, hn2, hpp⟩ |
                    ⟨tS, ntok, hn1, hn2, hpp⟩
                · rw [hpp]
                  simp only [List.cons_append, List.nil_append]
                  rw [mergeData_cons₂, if_pos (by simp [hat])]
                  cases hW : wsPass ch rest2 with
                  | nil =>
                      rw [mergeRun_single, if_neg (by simp [hle])]
                      simp [emitPair]
                  | cons w ws =>
                      rw [hW] at hWfree
                      rw [mergeRun_cons₂, if_neg (by simp [hle]), hWfree]
                      simp [emitPair]
                · rw [hpp]
                  simp only [List.cons_append, List.nil_append]
                  rw [mergeData_cons_not_data (by simpa using hn1),
                    mergeData_cons_not_data (by simpa using hn1), hleW]
                · rw [hpp]
                  simp only [List.cons_append, List.nil_append]
                  rw [mergeData_cons₂, if_pos (by simp [hbt])]
                  rw [mergeRun_cons₂, if_neg (by simpa using hn1)]
                  rw [mergeData_cons_not_data (by simpa using hn1), hleW]
                  simp [emitPair]
          · rw [wsPass_cons_not_trigger htr]
            by_cases hat : a.tok.type = "data"
            · cases rest with
              | nil =>
                  rw [wsPass_single]
                  exact hm
              | cons f1 rest' =>
                  have hf1 : ¬ f1.tok.type = "data" := mergeFree_third_not_data hat hm
                  rw [wsPass_cons_of_false
                    (isTrigger_false_of_b_not_data b hf1 rest') ch]
                  cases rest' with
                  | nil =>
                      rw [wsPass_single]
                      exact hm
                  | cons f2 rest3 =>
                      have hfree : mergeData (f2 :: rest3) = f2 :: rest3 :=
                        mergeFree_tail₂ hat hf1 hm
                      rw [wsPass_cons_of_false
                        (isTrigger_false_of_a_not_data hf1 f2 rest3) ch]
                      have hWfree : mergeData (wsPass ch (f2 :: rest3)) =
                          wsPass ch (f2 :: rest3) := by
                        refine ih ch _ ?_ hfree
                        simp at h ⊢
                        omega
                      obtain ⟨z2, zs2, hz2, _, _⟩ := wsPass_head ch f2 rest3
                      rw [hz2]
                      rw [hz2] at hWfree
                      rw [mergeData_cons₂, if_pos (by simp [hat])]
                      rw [mergeRun_cons₂, if_neg (by simp [hf1]), hWfree]
                      simp [emitPair]
            · have hfree : mergeData (b :: rest) = b :: rest :=
                mergeFree_tail_of_not_data hat hm
              have hWfree : mergeData (wsPass ch (b :: rest)) = wsPass ch (b :: rest) := by
                refine ih ch (b :: rest) ?_ hfree
                simp at h ⊢
                omega
              rw [mergeData_cons_not_data hat, hWfree]

/-- The whitespace pass preserves merge fixed points. -/
theorem wsPass_mergeFree (ch : List Chunk) (es : List Event)
    (h : mergeData es = es) : mergeData (wsPass ch es) = wsPass ch es :=
  wsPass_mergeFree_aux es.length ch es le_rfl h

/-! ## Claim C6: the Resolver is idempotent -/

/-- Claim C6: re-running `resolveJsxFlow` on its own output performs
zero further merges and zero further whitespace reclassifications — the
resolved event list is returned identically. -/
theorem claimC6_idempotent (ch : List Chunk) (es : List Event) :
    resolveJsxFlow ch (resolveJsxFlow ch es) = resolveJsxFlow ch es := by
  unfold resolveJsxFlow
  rw [wsPass_mergeFree ch (mergeData es) (mergeData_idem es)]
  exact wsPass_idem ch (mergeData es)

end MdxJsx
